import Mathlib

/-!
# Vector.h: a growable contiguous container over raw storage

Shallow embedding of `src/src/Vector.h`.

* The heap is a list of blocks addressed by their position; a block is either freed
  (`none`) or a list of slots, a slot being raw memory (`none`) or a live object
  (`some x`).  A `T*` is `Option Nat` (`none` is `nullptr`) and `ptr + i` is slot `i`
  of the block.
* The element type `T` is a template parameter: its size, its copy and move
  constructors and the behaviour of `operator new[]` are parameters (`ElemOps`).
  A constructor call may throw and may change the ambient world `W` (such as the
  static counter of the test type `Throwing42`); a successful copy or move yields an
  object equal to its source.
* `size_t` arithmetic written in the source (`cap_ << 1`, `new_capacity * sizeof(T)`,
  `++size_`, `--size_`, `size_ - 1`) is taken modulo `2 ^ 64`.
* A member function returns, throws, or has undefined behaviour (`Res.ub`: an access
  outside a live block, a read of a raw slot, a destructor call on a raw slot,
  freeing a block twice).
-/

namespace VectorH

/-- Number of values of `size_t`. -/
def SIZE_MOD : Nat := 2 ^ 64

/-- Parameters of the element type `T` and of the allocator. Each returns whether the
call throws, and the world after the call. -/
structure ElemOps (T W : Type) where
  /-- Value of `sizeof(T)`. -/
  sizeofT : Nat
  /-- Copy constructor `T(const T&)`. -/
  copyCtor : T → W → Bool × W
  /-- Move constructor `T(T&&)`. -/
  moveCtor : T → W → Bool × W
  /-- Allocation `new char[bytes]`; throwing is `std::bad_alloc`. -/
  allocThrows : Nat → W → Bool × W

/-- Lifetime events, in program order. -/
inductive Event where
  | alloc (p bytes : Nat)
  | free (p : Nat)
  | ctor (p i : Nat)
  | dtor (p i : Nat)
  deriving DecidableEq, Repr

/-- Memory: heap blocks, the world of the element type, and the event log. -/
structure Mem (T W : Type) where
  heap : List (Option (List (Option T)))
  world : W
  log : List Event
  deriving DecidableEq, Repr

/-- The three data members of `Vector<T>`. -/
structure Vector where
  data_ : Option Nat
  size_ : Nat
  cap_ : Nat
  deriving DecidableEq, Repr

/-- Outcome of a member function: normal return, exception, undefined behaviour. -/
inductive Res (σ : Type) where
  | ok (s : σ)
  | threw (s : σ)
  | ub
  deriving DecidableEq, Repr

/-- Outcome of the copy loop inside a `try` block: completed, or an exception raised
while `r_ind` had the given value. -/
inductive LoopRes (σ : Type) where
  | done (s : σ)
  | raised (r_ind : Nat) (s : σ)
  | ub
  deriving DecidableEq, Repr

variable {T W : Type}

/-- Allocation `reinterpret_cast<T*>(new char[n * sizeof(T)])`: the fresh block sits at
the end of the heap and holds as many raw slots as fit in the bytes obtained.
`none` is `std::bad_alloc`. -/
def allocBlock (E : ElemOps T W) (n : Nat) (m : Mem T W) : Option Nat × Mem T W :=
  let bytes := (n * E.sizeofT) % SIZE_MOD
  let r := E.allocThrows bytes m.world
  if r.1 then (none, { m with world := r.2 })
  else (some m.heap.length,
        { heap := m.heap ++ [some (List.replicate (bytes / E.sizeofT) none)],
          world := r.2,
          log := m.log ++ [Event.alloc m.heap.length bytes] })

/-- Read of `ptr[i]`: the live object in slot `i`, `none` when there is none. -/
def readSlot (m : Mem T W) (ptr : Option Nat) (i : Nat) : Option T :=
  match ptr with
  | none => none
  | some p =>
    match m.heap[p]? with
    | some (some slots) =>
      match slots[i]? with
      | some (some x) => some x
      | _ => none
    | _ => none

/-- Placement construction `new (ptr + i) T(x)` with the given constructor. -/
def placementNew (ctor : T → W → Bool × W) (ptr : Option Nat) (i : Nat) (x : T)
    (m : Mem T W) : Res (Mem T W) :=
  match ptr with
  | none => Res.ub
  | some p =>
    match m.heap[p]? with
    | some (some slots) =>
      if i < slots.length then
        let r := ctor x m.world
        if r.1 then Res.threw { m with world := r.2 }
        else Res.ok { heap := m.heap.set p (some (slots.set i (some x))),
                      world := r.2,
                      log := m.log ++ [Event.ctor p i] }
      else Res.ub
    | _ => Res.ub

/-- Destructor call `(ptr + i)->~T()` on the live object in slot `i`, which becomes
raw. `none` is undefined behaviour: there is no such slot, or no object was ever
constructed in it (or it was destructed already). -/
def destroyAt (ptr : Option Nat) (i : Nat) (m : Mem T W) : Option (Mem T W) :=
  match ptr with
  | none => none
  | some p =>
    match m.heap[p]? with
    | some (some slots) =>
      match slots[i]? with
      | some (some _) =>
        some { m with heap := m.heap.set p (some (slots.set i none)),
                      log := m.log ++ [Event.dtor p i] }
      | _ => none
    | _ => none

/-- Loop of `Destroy`: `k` more iterations, the next one at index `i`. -/
def DestroyFrom (arr : Option Nat) : Nat → Nat → Mem T W → Option (Mem T W)
  | 0, _, m => some m
  | k + 1, i, m =>
    match destroyAt arr i m with
    | none => none
    | some m1 => DestroyFrom arr k (i + 1) m1

/-- `Destroy(arr, r)`: `for (size_t i = 0; i < r; ++i) (arr + i)->~T();`. -/
def Destroy (arr : Option Nat) (r : Nat) (m : Mem T W) : Option (Mem T W) :=
  DestroyFrom arr r 0 m

/-- Deallocation `delete[] reinterpret_cast<char*>(ptr)`; a null pointer is a no-op. -/
def freeBlock (ptr : Option Nat) (m : Mem T W) : Option (Mem T W) :=
  match ptr with
  | none => some m
  | some p =>
    match m.heap[p]? with
    | some (some _) => some { m with heap := m.heap.set p none, log := m.log ++ [Event.free p] }
    | _ => none

/-- The loop `for (; r_ind < size_; ++r_ind) new (new_data + r_ind) T(data_[r_ind]);`
with `k` iterations left. -/
def copyLoop (E : ElemOps T W) (data_ new_data : Option Nat) :
    Nat → Nat → Mem T W → LoopRes (Mem T W)
  | 0, _, m => LoopRes.done m
  | k + 1, r_ind, m =>
    match readSlot m data_ r_ind with
    | none => LoopRes.ub
    | some x =>
      match placementNew E.copyCtor new_data r_ind x m with
      | Res.ub => LoopRes.ub
      | Res.threw m1 => LoopRes.raised r_ind m1
      | Res.ok m1 => copyLoop E data_ new_data k (r_ind + 1) m1

/-- The `catch (...)` block of `Reserve`. -/
def Reserve_catch (new_data : Option Nat) (r_ind : Nat) (v : Vector) (m : Mem T W) :
    Res (Vector × Mem T W) :=
  match Destroy new_data r_ind m with
  | none => Res.ub
  | some m1 =>
    match freeBlock new_data m1 with
    | none => Res.ub
    | some m2 => Res.threw (v, m2)

/-- `void Reserve(size_t new_capacity)`. -/
def Reserve (E : ElemOps T W) (new_capacity : Nat) (v : Vector) (m : Mem T W) :
    Res (Vector × Mem T W) :=
  if new_capacity ≤ v.cap_ then Res.ok (v, m)
  else
    match allocBlock E new_capacity m with
    | (none, m0) => Res.threw (v, m0)
    | (some new_data, m1) =>
      match copyLoop E v.data_ (some new_data) v.size_ 0 m1 with
      | LoopRes.ub => Res.ub
      | LoopRes.raised r_ind m2 => Reserve_catch (some new_data) r_ind v m2
      | LoopRes.done m2 =>
        match Destroy v.data_ v.size_ m2 with
        | none => Res.ub
        | some m3 =>
          match freeBlock v.data_ m3 with
          | none => Res.ub
          | some m4 => Res.ok ({ v with data_ := some new_data, cap_ := new_capacity }, m4)

/-- The `catch (...)` block of both `PushBack` overloads. -/
def PushBack_catch (new_data : Option Nat) (r_ind : Nat) (v : Vector) (m : Mem T W) :
    Res (Vector × Mem T W) :=
  match Destroy new_data r_ind m with
  | none => Res.ub
  | some m1 =>
    match (if r_ind = v.size_ then destroyAt new_data v.size_ m1 else some m1) with
    | none => Res.ub
    | some m2 =>
      match freeBlock new_data m2 with
      | none => Res.ub
      | some m3 => Res.threw (v, m3)

/-- Body shared by `PushBack(const T&)` and `PushBack(T&&)`, which differ only in the
constructor `ctor` that builds the new element from `value`. -/
def PushBackWith (E : ElemOps T W) (ctor : T → W → Bool × W) (value : T) (v : Vector)
    (m : Mem T W) : Res (Vector × Mem T W) :=
  if v.size_ < v.cap_ then
    match placementNew ctor v.data_ v.size_ value m with
    | Res.ub => Res.ub
    | Res.threw m1 => Res.threw (v, m1)
    | Res.ok m1 => Res.ok ({ v with size_ := (v.size_ + 1) % SIZE_MOD }, m1)
  else
    let new_capacity := if v.cap_ = 0 then 1 else (v.cap_ * 2) % SIZE_MOD
    match allocBlock E new_capacity m with
    | (none, m0) => Res.threw (v, m0)
    | (some new_data, m1) =>
      match copyLoop E v.data_ (some new_data) v.size_ 0 m1 with
      | LoopRes.ub => Res.ub
      | LoopRes.raised r_ind m2 => PushBack_catch (some new_data) r_ind v m2
      | LoopRes.done m2 =>
        match placementNew ctor (some new_data) v.size_ value m2 with
        | Res.ub => Res.ub
        | Res.threw m3 => PushBack_catch (some new_data) v.size_ v m3
        | Res.ok m3 =>
          match Destroy v.data_ v.size_ m3 with
          | none => Res.ub
          | some m4 =>
            match freeBlock v.data_ m4 with
            | none => Res.ub
            | some m5 =>
              Res.ok ({ data_ := some new_data, size_ := (v.size_ + 1) % SIZE_MOD,
                        cap_ := new_capacity }, m5)

/-- `void PushBack(const T &value)`. -/
def PushBack (E : ElemOps T W) (value : T) (v : Vector) (m : Mem T W) :
    Res (Vector × Mem T W) :=
  PushBackWith E E.copyCtor value v m

/-- `void PushBack(T &&value)`. -/
def PushBackMove (E : ElemOps T W) (value : T) (v : Vector) (m : Mem T W) :
    Res (Vector × Mem T W) :=
  PushBackWith E E.moveCtor value v m

/-- `void PopBack()`: `--size_; (data_ + size_)->~T();`. -/
def PopBack (v : Vector) (m : Mem T W) : Res (Vector × Mem T W) :=
  let v1 : Vector := { v with size_ := (v.size_ + SIZE_MOD - 1) % SIZE_MOD }
  match destroyAt v1.data_ v1.size_ m with
  | none => Res.ub
  | some m1 => Res.ok (v1, m1)

/-- `void Clear()`: `Destroy(data_, size_); size_ = 0;`. -/
def Clear (v : Vector) (m : Mem T W) : Res (Vector × Mem T W) :=
  match Destroy v.data_ v.size_ m with
  | none => Res.ub
  | some m1 => Res.ok ({ v with size_ := 0 }, m1)

/-- `size_t Size() const`. -/
def Size (v : Vector) : Nat := v.size_

/-- `size_t Capacity() const`. -/
def Capacity (v : Vector) : Nat := v.cap_

/-- `bool Empty() const`. -/
def Empty (v : Vector) : Bool := Size v == 0

/-- `T *Data()`. -/
def Data (v : Vector) : Option Nat := v.data_

/-- Unchecked access `operator[](index)`: `data_[index]`; `none` is undefined behaviour. -/
def subscript (v : Vector) (m : Mem T W) (index : Nat) : Option T :=
  readSlot m v.data_ index

/-- Outcome of `At`: the element referred to, or `std::out_of_range`; each with the
state after the call. -/
inductive AtRes (T σ : Type) where
  | ref (x : T) (s : σ)
  | out_of_range (s : σ)
  | ub
  deriving DecidableEq, Repr

/-- `T &At(size_t index)`. -/
def At (v : Vector) (m : Mem T W) (index : Nat) : AtRes T (Vector × Mem T W) :=
  if index ≥ Size v then AtRes.out_of_range (v, m)
  else
    match readSlot m v.data_ index with
    | none => AtRes.ub
    | some x => AtRes.ref x (v, m)

/-- `T &Front()`: `data_[0]`. -/
def Front (v : Vector) (m : Mem T W) : Option T := readSlot m v.data_ 0

/-- `T &Back()`: `data_[size_ - 1]`. -/
def Back (v : Vector) (m : Mem T W) : Option T :=
  readSlot m v.data_ ((v.size_ + SIZE_MOD - 1) % SIZE_MOD)

/-- The loop `while (Size() > count) PopBack();` of `Resize`, with a bound on the
number of iterations (the caller passes `size_ - count`, which the loop never
exceeds). -/
def shrinkLoop (count : Nat) : Nat → Vector → Mem T W → Res (Vector × Mem T W)
  | 0, v, m => Res.ok (v, m)
  | fuel + 1, v, m =>
    if Size v > count then
      match PopBack v m with
      | Res.ok (v1, m1) => shrinkLoop count fuel v1 m1
      | r => r
    else Res.ok (v, m)

/-- The loop `while (Size() < count) PushBack(value);` of `Resize`, with a bound on
the number of iterations (the caller passes `count - size_`). -/
def growLoop (E : ElemOps T W) (count : Nat) (value : T) :
    Nat → Vector → Mem T W → Res (Vector × Mem T W)
  | 0, v, m => Res.ok (v, m)
  | fuel + 1, v, m =>
    if Size v < count then
      match PushBack E value v m with
      | Res.ok (v1, m1) => growLoop E count value fuel v1 m1
      | r => r
    else Res.ok (v, m)

/-- `void Resize(size_t count, const T &value)`, for a `value` that is not an element
of the container itself. -/
def Resize (E : ElemOps T W) (count : Nat) (value : T) (v : Vector) (m : Mem T W) :
    Res (Vector × Mem T W) :=
  match (if Capacity v < count then Reserve E count v m else Res.ok (v, m)) with
  | Res.ok (v1, m1) =>
    match shrinkLoop count (v1.size_ - count) v1 m1 with
    | Res.ok (v2, m2) => growLoop E count value (count - v2.size_) v2 m2
    | r => r
  | r => r

/-- `Vector()`: the object right after its member initialisers. -/
def Vector.default : Vector := { data_ := none, size_ := 0, cap_ := 0 }

/-- The loop `for (const auto &val : init) PushBack(val);`. -/
def pushAll (E : ElemOps T W) : List T → Vector → Mem T W → Res (Vector × Mem T W)
  | [], v, m => Res.ok (v, m)
  | val :: rest, v, m =>
    match PushBack E val v m with
    | Res.ok (v1, m1) => pushAll E rest v1 m1
    | r => r

/-- The loop `for (size_t i = 0; i < count; ++i) PushBack(value);`. -/
def pushFill (E : ElemOps T W) (value : T) : Nat → Vector → Mem T W → Res (Vector × Mem T W)
  | 0, v, m => Res.ok (v, m)
  | k + 1, v, m =>
    match PushBack E value v m with
    | Res.ok (v1, m1) => pushFill E value k v1 m1
    | r => r

/-- The loop `for (size_t i = 0; i < oth.Size(); ++i) PushBack(oth[i]);` with `k`
iterations left, `oth` being another object than the one appended to. -/
def pushFrom (E : ElemOps T W) (oth : Vector) :
    Nat → Nat → Vector → Mem T W → Res (Vector × Mem T W)
  | 0, _, v, m => Res.ok (v, m)
  | k + 1, i, v, m =>
    match subscript oth m i with
    | none => Res.ub
    | some x =>
      match PushBack E x v m with
      | Res.ok (v1, m1) => pushFrom E oth k (i + 1) v1 m1
      | r => r

/-- `Vector(std::initializer_list<T> init)`. When the body throws, the object under
construction is abandoned as it is (its destructor does not run): it is the first
component of `Res.threw`. -/
def Vector.fromInit (E : ElemOps T W) (init : List T) (m : Mem T W) :
    Res (Vector × Mem T W) :=
  match Reserve E init.length Vector.default m with
  | Res.ok (v1, m1) => pushAll E init v1 m1
  | r => r

/-- `explicit Vector(size_t count, const T &value)`; on a throw see `Vector.fromInit`. -/
def Vector.fromCount (E : ElemOps T W) (count : Nat) (value : T) (m : Mem T W) :
    Res (Vector × Mem T W) :=
  match Reserve E count Vector.default m with
  | Res.ok (v1, m1) => pushFill E value count v1 m1
  | r => r

/-- `Vector(const Vector &oth)`; on a throw see `Vector.fromInit`. -/
def Vector.fromCopy (E : ElemOps T W) (oth : Vector) (m : Mem T W) :
    Res (Vector × Mem T W) :=
  match Reserve E (Size oth) Vector.default m with
  | Res.ok (v1, m1) => pushFrom E oth (Size oth) 0 v1 m1
  | r => r

/-- Body of `operator=(const Vector &oth)` under `this != &oth`. -/
def assignCopyBody (E : ElemOps T W) (v oth : Vector) (m : Mem T W) :
    Res (Vector × Mem T W) :=
  match Clear v m with
  | Res.ok (v1, m1) =>
    match Reserve E (Size oth) v1 m1 with
    | Res.ok (v2, m2) => pushFrom E oth (Size oth) 0 v2 m2
    | r => r
  | r => r

/-- Program state: the container objects, an object's identity being its position,
and the memory. -/
structure State (T W : Type) where
  objs : List Vector
  mem : Mem T W
  deriving DecidableEq, Repr

/-- Call of a member function on the object `this`. -/
def method (f : Vector → Mem T W → Res (Vector × Mem T W)) (this : Nat) (s : State T W) :
    Res (State T W) :=
  match s.objs[this]? with
  | none => Res.ub
  | some v =>
    match f v s.mem with
    | Res.ok (v1, m1) => Res.ok { objs := s.objs.set this v1, mem := m1 }
    | Res.threw (v1, m1) => Res.threw { objs := s.objs.set this v1, mem := m1 }
    | Res.ub => Res.ub

/-- Definition of a new object by a constructor: the object exists only when the
constructor returns. -/
def construct (f : Mem T W → Res (Vector × Mem T W)) (s : State T W) : Res (State T W) :=
  match f s.mem with
  | Res.ok (v1, m1) => Res.ok { objs := s.objs ++ [v1], mem := m1 }
  | Res.threw (_, m1) => Res.threw { objs := s.objs, mem := m1 }
  | Res.ub => Res.ub

/-- `void Swap(Vector &oth)` (and `Swap(Vector &&oth)`, whose body is the same). -/
def Swap (this oth : Nat) (s : State T W) : Res (State T W) :=
  match s.objs[this]?, s.objs[oth]? with
  | some a, some b =>
    if this ≠ oth then Res.ok { s with objs := (s.objs.set this b).set oth a }
    else Res.ok s
  | _, _ => Res.ub

/-- `Vector &operator=(const Vector &oth)`. -/
def assignCopy (E : ElemOps T W) (this oth : Nat) (s : State T W) : Res (State T W) :=
  match s.objs[oth]? with
  | none => Res.ub
  | some b =>
    if this ≠ oth then method (fun v m => assignCopyBody E v b m) this s
    else
      match s.objs[this]? with
      | none => Res.ub
      | some _ => Res.ok s

/-- `Vector &operator=(Vector &&oth)`. -/
def assignMove (this oth : Nat) (s : State T W) : Res (State T W) :=
  match s.objs[this]?, s.objs[oth]? with
  | some _, some _ =>
    if this ≠ oth then
      match method Clear this s with
      | Res.ok s1 => Swap this oth s1
      | r => r
    else Res.ok s
  | _, _ => Res.ub

/-- `Vector(Vector &&oth) : Vector() { Swap(oth); }`: the new object is the last one. -/
def constructMove (oth : Nat) (s : State T W) : Res (State T W) :=
  Swap s.objs.length oth { s with objs := s.objs ++ [Vector.default] }

/-- Calls a program can make on the containers it holds. -/
inductive Op (T : Type) where
  | ctorDefault
  | ctorInit (init : List T)
  | ctorCount (count : Nat) (value : T)
  | ctorCopy (oth : Nat)
  | ctorMove (oth : Nat)
  | assignCopy (this oth : Nat)
  | assignMove (this oth : Nat)
  | Reserve (this new_capacity : Nat)
  | Resize (this count : Nat) (value : T)
  | PushBack (this : Nat) (value : T)
  | PushBackMove (this : Nat) (value : T)
  | PopBack (this : Nat)
  | Clear (this : Nat)
  | Swap (this oth : Nat)
  deriving DecidableEq, Repr

/-- One call. -/
def step (E : ElemOps T W) (op : Op T) (s : State T W) : Res (State T W) :=
  match op with
  | Op.ctorDefault => construct (fun m => Res.ok (Vector.default, m)) s
  | Op.ctorInit init => construct (Vector.fromInit E init) s
  | Op.ctorCount count value => construct (Vector.fromCount E count value) s
  | Op.ctorCopy oth =>
    match s.objs[oth]? with
    | none => Res.ub
    | some b => construct (Vector.fromCopy E b) s
  | Op.ctorMove oth => constructMove oth s
  | Op.assignCopy this oth => assignCopy E this oth s
  | Op.assignMove this oth => assignMove this oth s
  | Op.Reserve this n => method (Reserve E n) this s
  | Op.Resize this count value => method (Resize E count value) this s
  | Op.PushBack this value => method (PushBack E value) this s
  | Op.PushBackMove this value => method (PushBackMove E value) this s
  | Op.PopBack this => method PopBack this s
  | Op.Clear this => method Clear this s
  | Op.Swap this oth => Swap this oth s

/-- The container `v` holds exactly the values `ys`: `ys` has `size_` elements and
`operator[](i)` yields the `i`-th of them. -/
def Holds (m : Mem T W) (v : Vector) (ys : List T) : Prop :=
  ys.length = v.size_ ∧ ∀ i, i < v.size_ → subscript v m i = ys[i]?

/-- An element type whose `fail`-th construction (counting copies and moves from 0 in
the world) throws; allocation never fails; `sizeof(T) == 4`. -/
def failAt (fail : Nat) : ElemOps Nat Nat where
  sizeofT := 4
  copyCtor := fun _ w => (w == fail, w + 1)
  moveCtor := fun _ w => (w == fail, w + 1)
  allocThrows := fun _ w => (false, w)

/-- An empty heap in a fresh world. -/
def emptyMem : Mem Nat Nat := { heap := [], world := 0, log := [] }

/-- A one-block memory holding the given values, all live, with `extra` raw slots
behind them. -/
def memOf (xs : List Nat) (extra : Nat) : Mem Nat Nat :=
  { heap := [some (xs.map some ++ List.replicate extra none)], world := 0, log := [] }

/-- The container owning block 0 of `memOf xs extra`. -/
def vecOf (xs : List Nat) (extra : Nat) : Vector :=
  { data_ := some 0, size_ := xs.length, cap_ := xs.length + extra }

/-- A container of the program: `size_ <= cap_`, `cap_` is a `size_t`, and `data_` is
null or was obtained from the allocator. -/
def WF (m : Mem T W) (v : Vector) : Prop :=
  v.size_ ≤ v.cap_ ∧ v.cap_ < SIZE_MOD ∧ ∀ q, v.data_ = some q → q < m.heap.length

/-- Two containers do not share a storage block. -/
def NoShare (a b : Vector) : Prop :=
  ∀ q, a.data_ = some q → b.data_ ≠ some q

/-- The container `vecOf [7, 8, 9] 0` after `Reserve(5)`. -/
def vecReserved : Vector := { data_ := some 1, size_ := 3, cap_ := 5 }

/-- The memory `memOf [7, 8, 9] 0` after `Reserve(5)` with no failure. -/
def memReserved : Mem Nat Nat :=
  { heap := [none, some [some 7, some 8, some 9, none, none]],
    world := 3,
    log := [Event.alloc 1 20, Event.ctor 1 0, Event.ctor 1 1, Event.ctor 1 2,
            Event.dtor 0 0, Event.dtor 0 1, Event.dtor 0 2, Event.free 0] }

/-- A default-constructed container after `PushBack(1); PushBack(2); PushBack(3);`. -/
def vecPushed : Vector := { data_ := some 2, size_ := 3, cap_ := 4 }

/-- The memory after `PushBack(1); PushBack(2); PushBack(3);` on a default-constructed
container in `emptyMem`. -/
def memPushed : Mem Nat Nat :=
  { heap := [none, none, some [some 1, some 2, some 3, none]],
    world := 6,
    log := [Event.alloc 0 4, Event.ctor 0 0,
            Event.alloc 1 8, Event.ctor 1 0, Event.ctor 1 1, Event.dtor 0 0, Event.free 0,
            Event.alloc 2 16, Event.ctor 2 0, Event.ctor 2 1, Event.ctor 2 2,
            Event.dtor 1 0, Event.dtor 1 1, Event.free 1] }

/-- Two containers: object 0 holds `[9]` in block 0 (capacity 1), object 1 holds
`[1, 2]` in block 1 (capacity 2). -/
def moveStart : State Nat Nat :=
  { objs := [vecOf [9] 0, { data_ := some 1, size_ := 2, cap_ := 2 }],
    mem := { heap := [some [some 9], some [some 1, some 2]], world := 0, log := [] } }

/-- The state after object 0 of `moveStart` is move-assigned from object 1. -/
def moveEnd : State Nat Nat :=
  { objs := [{ data_ := some 1, size_ := 2, cap_ := 2 }, { data_ := some 0, size_ := 0, cap_ := 1 }],
    mem := { heap := [some [none], some [some 1, some 2]], world := 0,
             log := [Event.dtor 0 0] } }

/-- Two containers: object 0 holds `[1, 2]` in block 0, object 1 holds `[9]` in
block 1. -/
def copyStart : State Nat Nat :=
  { objs := [vecOf [1, 2] 0, { data_ := some 1, size_ := 1, cap_ := 1 }],
    mem := { heap := [some [some 1, some 2], some [some 9]], world := 0, log := [] } }

/-- The state after object 1 of `copyStart` is copy-assigned from object 0 with an
element type whose second construction throws. -/
def copyEnd : State Nat Nat :=
  { objs := [vecOf [1, 2] 0, { data_ := some 2, size_ := 1, cap_ := 2 }],
    mem := { heap := [some [some 1, some 2], none, some [some 1, none]], world := 2,
             log := [Event.dtor 1 0, Event.alloc 2 8, Event.free 1, Event.ctor 2 0] } }

/-- The memory of `copyStart` after `Clear()` on object 1, the first step of the copy
assignment of object 0 to object 1. -/
def memAssign1 : Mem Nat Nat :=
  { heap := [some [some 1, some 2], some [none]], world := 0, log := [Event.dtor 1 0] }

/-- The memory after the following `Reserve(2)` on object 1: a new block of two slots,
the old block freed. -/
def memAssign2 : Mem Nat Nat :=
  { heap := [some [some 1, some 2], none, some [none, none]], world := 0,
    log := [Event.dtor 1 0, Event.alloc 2 8, Event.free 1] }

/-- The memory after the first `PushBack(oth[0])` of the copying loop. -/
def memAssign3 : Mem Nat Nat :=
  { heap := [some [some 1, some 2], none, some [some 1, none]], world := 1,
    log := [Event.dtor 1 0, Event.alloc 2 8, Event.free 1, Event.ctor 2 0] }

/-- The memory during `PushBack(4)` on the full container `vecOf [7, 8, 9] 0` once the
new block (block 1, six slots) is allocated and the three existing elements are copied
into it. -/
def memCopied : Mem Nat Nat :=
  { heap := [some [some 7, some 8, some 9], some [some 7, some 8, some 9, none, none, none]],
    world := 3,
    log := [Event.alloc 1 24, Event.ctor 1 0, Event.ctor 1 1, Event.ctor 1 2] }

/-- The memory at the entry of the `catch` block of that `PushBack(4)` when the
construction of the new value in slot 3 threw: slot 3 is raw. -/
def memCaught : Mem Nat Nat :=
  { heap := [some [some 7, some 8, some 9], some [some 7, some 8, some 9, none, none, none]],
    world := 4,
    log := [Event.alloc 1 24, Event.ctor 1 0, Event.ctor 1 1, Event.ctor 1 2] }

/-- The memory in that `catch` block after `Destroy(new_data, r_ind)` with
`r_ind == 3`. -/
def memUnwound : Mem Nat Nat :=
  { heap := [some [some 7, some 8, some 9], some [none, none, none, none, none, none]],
    world := 4,
    log := [Event.alloc 1 24, Event.ctor 1 0, Event.ctor 1 1, Event.ctor 1 2,
            Event.dtor 1 0, Event.dtor 1 1, Event.dtor 1 2] }

/-- The memory after `PushBack(4)` on the full container `vecOf [7, 8, 9] 0` when the
copy of the third existing element throws. -/
def memCopyThrow : Mem Nat Nat :=
  { heap := [some [some 7, some 8, some 9], none],
    world := 3,
    log := [Event.alloc 1 24, Event.ctor 1 0, Event.ctor 1 1,
            Event.dtor 1 0, Event.dtor 1 1, Event.free 1] }

/-- The allocation layout of the heap: which blocks are live, and with how many slots. -/
def layout (m : Mem T W) : List (Option Nat) :=
  m.heap.map (Option.map List.length)

/-- The memory after `Reserve(10)` on the container `vecOf [10, 10, 10] 2` in
`memOf [10, 10, 10] 2`, the first step of `Resize(10, 99)`. -/
def memResize1 : Mem Nat Nat :=
  { heap := [none, some [some 10, some 10, some 10, none, none, none, none, none, none, none]],
    world := 3,
    log := [Event.alloc 1 40, Event.ctor 1 0, Event.ctor 1 1, Event.ctor 1 2,
            Event.dtor 0 0, Event.dtor 0 1, Event.dtor 0 2, Event.free 0] }

/-- The memory `memResize1` after two appends of 99. -/
def memResize2 : Mem Nat Nat :=
  { heap := [none, some [some 10, some 10, some 10, some 99, some 99, none, none, none, none,
                         none]],
    world := 5,
    log := [Event.alloc 1 40, Event.ctor 1 0, Event.ctor 1 1, Event.ctor 1 2,
            Event.dtor 0 0, Event.dtor 0 1, Event.dtor 0 2, Event.free 0,
            Event.ctor 1 3, Event.ctor 1 4] }

/-- The memory `memResize2` after a third append of 99 that throws. -/
def memResize3 : Mem Nat Nat := { memResize2 with world := 6 }

/-- The memory after `Resize(10, 99)` on the container `vecOf [10, 10, 10] 2` in
`memOf [10, 10, 10] 2` with no failure. -/
def memResized : Mem Nat Nat :=
  { heap := [none, some [some 10, some 10, some 10, some 99, some 99, some 99, some 99,
                         some 99, some 99, some 99]],
    world := 10,
    log := [Event.alloc 1 40, Event.ctor 1 0, Event.ctor 1 1, Event.ctor 1 2,
            Event.dtor 0 0, Event.dtor 0 1, Event.dtor 0 2, Event.free 0,
            Event.ctor 1 3, Event.ctor 1 4, Event.ctor 1 5, Event.ctor 1 6, Event.ctor 1 7,
            Event.ctor 1 8, Event.ctor 1 9] }

/-- The memory after `Vector<int> vec{1, 2, 3, 4, 5}` in `emptyMem`. -/
def memInit : Mem Nat Nat :=
  { heap := [some [some 1, some 2, some 3, some 4, some 5]],
    world := 5,
    log := [Event.alloc 0 20, Event.ctor 0 0, Event.ctor 0 1, Event.ctor 0 2, Event.ctor 0 3,
            Event.ctor 0 4] }

/-- The memory after `Vector<int> vec(4, 10)` in `emptyMem`. -/
def memCount : Mem Nat Nat :=
  { heap := [some [some 10, some 10, some 10, some 10]],
    world := 4,
    log := [Event.alloc 0 16, Event.ctor 0 0, Event.ctor 0 1, Event.ctor 0 2, Event.ctor 0 3] }

/-- The state after a third container is copy-constructed from object 0 of
`copyStart`. -/
def copyCtorEnd : State Nat Nat :=
  { objs := [vecOf [1, 2] 0, { data_ := some 1, size_ := 1, cap_ := 1 },
             { data_ := some 2, size_ := 2, cap_ := 2 }],
    mem := { heap := [some [some 1, some 2], some [some 9], some [some 1, some 2]], world := 2,
             log := [Event.alloc 2 8, Event.ctor 2 0, Event.ctor 2 1] } }

/-- The state after object 1 of `copyStart` is copy-assigned from object 0 with no
failure. -/
def copyAssignEnd : State Nat Nat :=
  { objs := [vecOf [1, 2] 0, { data_ := some 2, size_ := 2, cap_ := 2 }],
    mem := { heap := [some [some 1, some 2], none, some [some 1, some 2]], world := 2,
             log := [Event.dtor 1 0, Event.alloc 2 8, Event.free 1, Event.ctor 2 0,
                     Event.ctor 2 1] } }

/-- The mutating operations of the random test. -/
inductive SeqOp (T : Type) where
  | PushBack (x : T)
  | PopBack
  | Resize (n : Nat) (x : T)
  | Clear
  deriving DecidableEq, Repr

/-- One operation of the random test on the container. -/
def applyOp (E : ElemOps T W) : SeqOp T → Vector → Mem T W → Res (Vector × Mem T W)
  | SeqOp.PushBack x, v, m => PushBack E x v m
  | SeqOp.PopBack, v, m => PopBack v m
  | SeqOp.Resize n x, v, m => Resize E n x v m
  | SeqOp.Clear, v, m => Clear v m

/-- A sequence of operations on the container, up to the first one that does not
return. -/
def runSeq (E : ElemOps T W) : List (SeqOp T) → Vector → Mem T W → Res (Vector × Mem T W)
  | [], v, m => Res.ok (v, m)
  | op :: rest, v, m =>
    match applyOp E op v m with
    | Res.ok (v1, m1) => runSeq E rest v1 m1
    | r => r

/-- Reference model of one operation on a plain list: append, drop the last element,
truncate or pad with `x`, reset to empty. -/
def modelOp : SeqOp T → List T → List T
  | SeqOp.PushBack x, l => l ++ [x]
  | SeqOp.PopBack, l => l.dropLast
  | SeqOp.Resize n x, l => l.take n ++ List.replicate (n - l.length) x
  | SeqOp.Clear, _ => []

/-- Reference model of a sequence of operations on a plain list. -/
def modelRun : List (SeqOp T) → List T → List T
  | [], l => l
  | op :: rest, l => modelRun rest (modelOp op l)

/-- Precondition of one operation: `PopBack` only on a non-empty container, and the
argument of `Resize` is a `size_t`. -/
def opAllowed : SeqOp T → List T → Prop
  | SeqOp.PopBack, l => l ≠ []
  | SeqOp.Resize n _, _ => n < SIZE_MOD
  | _, _ => True

/-- Every operation of the sequence is called within its precondition. -/
def Admissible : List (SeqOp T) → List T → Prop
  | [], _ => True
  | op :: rest, l => opAllowed op l ∧ Admissible rest (modelOp op l)

/-- A run of the random test: appends, a `PopBack`, a growing and a shrinking
`Resize`, a `Clear` and more appends. -/
def seqOps : List (SeqOp Nat) :=
  [SeqOp.PushBack 1, SeqOp.PushBack 2, SeqOp.PopBack, SeqOp.Resize 4 7, SeqOp.Resize 2 0,
   SeqOp.Clear, SeqOp.PushBack 5, SeqOp.PushBack 6]

/-- The memory after `seqOps` on a default-constructed container in `emptyMem`. -/
def memSeq : Mem Nat Nat :=
  { heap := [none, none, some [some 5, some 6, none, none]],
    world := 9,
    log := [Event.alloc 0 4, Event.ctor 0 0,
            Event.alloc 1 8, Event.ctor 1 0, Event.ctor 1 1, Event.dtor 0 0, Event.free 0,
            Event.dtor 1 1,
            Event.alloc 2 16, Event.ctor 2 0, Event.dtor 1 0, Event.free 1,
            Event.ctor 2 1, Event.ctor 2 2, Event.ctor 2 3,
            Event.dtor 2 3, Event.dtor 2 2,
            Event.dtor 2 0, Event.dtor 2 1,
            Event.ctor 2 0, Event.ctor 2 1] }

/-- Whether an event is an allocation. -/
def isAlloc : Event → Bool
  | Event.alloc _ _ => true
  | _ => false

/-- Number of allocations made so far. -/
def allocCount (m : Mem T W) : Nat := m.log.countP isAlloc

/-! ## Memory primitives -/

theorem heap_set_top (base : List (Option (List (Option T)))) (a b : Option (List (Option T))) :
    (base ++ [a]).set base.length b = base ++ [b] := by
  induction base with
  | nil => rfl
  | cons x xs ih => simp [List.set, ih]

theorem set_same {α : Type} (l : List α) (i : Nat) (a : α) (h : l[i]? = some a) :
    l.set i a = l := by
  induction l generalizing i with
  | nil => rfl
  | cons x xs ih =>
    cases i with
    | zero => simp at h; simp [h]
    | succ i => simp at h; simp [ih i h]

theorem lt_of_getElem? {α : Type} {l : List α} {i : Nat} {a : α} (h : l[i]? = some a) :
    i < l.length := by
  by_contra hc
  rw [List.getElem?_eq_none (by omega)] at h
  cases h

theorem readSlot_heap {m m' : Mem T W} (h : m'.heap = m.heap) (ptr : Option Nat) (i : Nat) :
    readSlot m' ptr i = readSlot m ptr i := by
  unfold readSlot
  rw [h]

theorem readSlot_set_ne {m m' : Mem T W} {p : Nat} {b : Option (List (Option T))}
    (h : m'.heap = m.heap.set p b) {ptr : Option Nat} (hne : ptr ≠ some p) (i : Nat) :
    readSlot m' ptr i = readSlot m ptr i := by
  unfold readSlot
  cases ptr with
  | none => rfl
  | some q =>
    have hq : p ≠ q := fun e => hne (by rw [e])
    simp only [h, List.getElem?_set_ne hq]

theorem readSlot_set_eq {m m' : Mem T W} {p : Nat} {s : List (Option T)}
    (h : m'.heap = m.heap.set p (some s)) (hp : p < m.heap.length) (i : Nat) :
    readSlot m' (some p) i = (s[i]?).join := by
  unfold readSlot
  simp only [h, List.getElem?_set_self hp]
  cases hs : s[i]? with
  | none => rfl
  | some o => cases o <;> rfl

theorem readSlot_some {m : Mem T W} {ptr : Option Nat} {i : Nat} {x : T}
    (h : readSlot m ptr i = some x) :
    ∃ p s, ptr = some p ∧ m.heap[p]? = some (some s) ∧ s[i]? = some (some x) := by
  unfold readSlot at h
  cases ptr with
  | none => cases h
  | some p =>
    simp only at h
    split at h
    · rename_i s hs
      split at h
      · rename_i y hy
        simp only [Option.some.injEq] at h
        subst h
        exact ⟨p, s, rfl, hs, hy⟩
      · cases h
    · cases h

/-- What `allocBlock` does when it returns a block. -/
theorem allocBlock_some {E : ElemOps T W} {n p : Nat} {m m1 : Mem T W}
    (h : allocBlock E n m = (some p, m1)) :
    p = m.heap.length ∧ ∃ s, m1.heap = m.heap ++ [some s] ∧
      s.length = (n * E.sizeofT) % SIZE_MOD / E.sizeofT ∧
      ∀ j, j < s.length → s[j]? = some none := by
  unfold allocBlock at h
  simp only at h
  split at h
  · simp at h
  · simp only [Prod.mk.injEq, Option.some.injEq] at h
    obtain ⟨hp, hm⟩ := h
    subst hm
    refine ⟨hp.symm, _, rfl, by simp, ?_⟩
    intro j hj
    simp at hj
    simp [hj]

/-- When `allocBlock` throws the heap is untouched. -/
theorem allocBlock_none {E : ElemOps T W} {n : Nat} {m m0 : Mem T W}
    (h : allocBlock E n m = (none, m0)) : m0.heap = m.heap ∧ m0.log = m.log := by
  unfold allocBlock at h
  simp only at h
  split at h
  · simp only [Prod.mk.injEq, true_and] at h
    subst h
    exact ⟨rfl, rfl⟩
  · simp at h

theorem placementNew_ok {ctor : T → W → Bool × W} {p i : Nat} {x : T} {m m' : Mem T W}
    (h : placementNew ctor (some p) i x m = Res.ok m') :
    ∃ s, m.heap[p]? = some (some s) ∧ i < s.length ∧
      m'.heap = m.heap.set p (some (s.set i (some x))) := by
  unfold placementNew at h
  simp only at h
  split at h
  · rename_i s hs
    split at h
    · split at h
      · simp at h
      · simp only [Res.ok.injEq] at h
        subst h
        exact ⟨s, hs, by assumption, rfl⟩
    · simp at h
  · simp at h

theorem placementNew_threw {ctor : T → W → Bool × W} {p i : Nat} {x : T} {m m' : Mem T W}
    (h : placementNew ctor (some p) i x m = Res.threw m') :
    ∃ s, m.heap[p]? = some (some s) ∧ i < s.length ∧ m'.heap = m.heap ∧ m'.log = m.log := by
  unfold placementNew at h
  simp only at h
  split at h
  · rename_i s hs
    split at h
    · split at h
      · simp only [Res.threw.injEq] at h
        subst h
        exact ⟨s, hs, by assumption, rfl, rfl⟩
      · simp at h
    · simp at h
  · simp at h

theorem placementNew_none {ctor : T → W → Bool × W} {i : Nat} {x : T} {m : Mem T W} :
    placementNew ctor none i x m = Res.ub := rfl

/-- A destructor call on a live object goes through and makes the slot raw. -/
theorem destroyAt_ok {p i : Nat} {m : Mem T W} {s : List (Option T)} {x : T}
    (hs : m.heap[p]? = some (some s)) (hx : s[i]? = some (some x)) :
    ∃ m', destroyAt (some p) i m = some m' ∧
      m'.heap = m.heap.set p (some (s.set i none)) ∧ m'.world = m.world := by
  unfold destroyAt
  simp only [hs, hx]
  exact ⟨_, rfl, rfl, rfl⟩

/-- A destructor call on a raw slot is undefined behaviour. -/
theorem destroyAt_raw {p i : Nat} {m : Mem T W} {s : List (Option T)}
    (hs : m.heap[p]? = some (some s)) (hx : s[i]? = some none) :
    destroyAt (some p) i m = none := by
  unfold destroyAt
  simp only [hs, hx]

theorem destroyAt_some {p : Option Nat} {i : Nat} {m m' : Mem T W}
    (h : destroyAt p i m = some m') :
    ∃ q s, p = some q ∧ m.heap[q]? = some (some s) ∧ i < s.length ∧
      m'.heap = m.heap.set q (some (s.set i none)) ∧ m'.world = m.world := by
  cases p with
  | none => cases h
  | some q =>
    unfold destroyAt at h
    simp only at h
    split at h
    · rename_i s hs
      split at h
      · rename_i y hy
        simp only [Option.some.injEq] at h
        subst h
        exact ⟨q, s, rfl, hs, lt_of_getElem? hy, rfl, rfl⟩
      · cases h
    · cases h

/-- The loop of `Destroy` over live objects goes through, makes the slots it visits
raw and leaves the others alone. -/
theorem DestroyFrom_ok {p : Nat} (k : Nat) : ∀ (i : Nat) (m : Mem T W) (s : List (Option T)),
    m.heap[p]? = some (some s) → (∀ j, i ≤ j → j < i + k → ∃ x, s[j]? = some (some x)) →
    ∃ m' s', DestroyFrom (some p) k i m = some m' ∧ m'.heap = m.heap.set p (some s') ∧
      s'.length = s.length ∧ m'.world = m.world ∧
      (∀ j, j < i ∨ i + k ≤ j → s'[j]? = s[j]?) ∧
      (∀ j, i ≤ j → j < i + k → s'[j]? = some none) := by
  induction k with
  | zero =>
    intro i m s hs _
    refine ⟨m, s, rfl, (set_same _ p _ hs).symm, rfl, rfl, fun _ _ => rfl, ?_⟩
    intro j h1 h2
    omega
  | succ k ih =>
    intro i m s hs hlive
    obtain ⟨x, hx⟩ := hlive i (Nat.le_refl _) (by omega)
    have hil : i < s.length := lt_of_getElem? hx
    obtain ⟨m1, h1, hh1, hw1⟩ := destroyAt_ok hs hx
    have hp : p < m.heap.length := lt_of_getElem? hs
    have hs1 : m1.heap[p]? = some (some (s.set i none)) := by
      rw [hh1, List.getElem?_set_self hp]
    obtain ⟨m', s', h2, hh2, hl2, hw2, hout, hin⟩ :=
      ih (i + 1) m1 (s.set i none) hs1 (fun j hj1 hj2 => by
        rw [List.getElem?_set_ne (by omega)]
        exact hlive j (by omega) (by omega))
    refine ⟨m', s', ?_, ?_, ?_, ?_, ?_, ?_⟩
    · simp only [DestroyFrom, h1, h2]
    · rw [hh2, hh1, List.set_set]
    · simpa using hl2
    · rw [hw2, hw1]
    · intro j hj
      rw [hout j (by omega), List.getElem?_set_ne (by omega)]
    · intro j h1 h2
      by_cases hji : j = i
      · subst hji
        rw [hout j (by omega), List.getElem?_set_self (by omega)]
      · exact hin j (by omega) (by omega)

/-- The loop of `Destroy`, when it goes through, leaves the slots of its block that
it does not visit alone. -/
theorem DestroyFrom_keeps {p : Nat} (k : Nat) :
    ∀ (i : Nat) (m m' : Mem T W) (s : List (Option T)),
    m.heap[p]? = some (some s) → DestroyFrom (some p) k i m = some m' →
    ∃ s', m'.heap[p]? = some (some s') ∧ ∀ j, j < i ∨ i + k ≤ j → s'[j]? = s[j]? := by
  induction k with
  | zero =>
    intro i m m' s hs h
    simp only [DestroyFrom, Option.some.injEq] at h
    subst h
    exact ⟨s, hs, fun _ _ => rfl⟩
  | succ k ih =>
    intro i m m' s hs h
    cases h1 : destroyAt (some p) i m with
    | none => simp [DestroyFrom, h1] at h
    | some m1 =>
      simp only [DestroyFrom, h1] at h
      obtain ⟨q, s0, hq, hs0, -, hh, -⟩ := destroyAt_some h1
      simp only [Option.some.injEq] at hq
      subst hq
      rw [hs] at hs0
      simp only [Option.some.injEq] at hs0
      subst hs0
      have hs1 : m1.heap[p]? = some (some (s.set i none)) := by
        rw [hh, List.getElem?_set_self (lt_of_getElem? hs)]
      obtain ⟨s', e1, e2⟩ := ih (i + 1) m1 m' _ hs1 h
      refine ⟨s', e1, fun j hj => ?_⟩
      rw [e2 j (by omega), List.getElem?_set_ne (by omega)]

theorem freeBlock_ok {p : Nat} {m : Mem T W} {s : List (Option T)}
    (hs : m.heap[p]? = some (some s)) :
    ∃ m', freeBlock (some p) m = some m' ∧ m'.heap = m.heap.set p none ∧ m'.world = m.world := by
  unfold freeBlock
  simp only [hs]
  exact ⟨_, rfl, rfl, rfl⟩

/-! ## The copy loop -/

/-- Shape of the heap when the copy loop raises: only the destination block changed,
the index at which the exception was raised lies inside it, the slots before the start
of the loop are as they were and those the loop went through hold live objects. -/
theorem copyLoop_raised {E : ElemOps T W} {src : Option Nat} {p : Nat} (k : Nat) :
    ∀ (r : Nat) (m : Mem T W) (s : List (Option T)) (r' : Nat) (m' : Mem T W),
    m.heap[p]? = some (some s) →
    copyLoop E src (some p) k r m = LoopRes.raised r' m' →
    ∃ s', m'.heap = m.heap.set p (some s') ∧ s'.length = s.length ∧
      r ≤ r' ∧ r' < r + k ∧ r' < s.length ∧
      (∀ j, j < r → s'[j]? = s[j]?) ∧
      (∀ j, r ≤ j → j < r' → ∃ x, s'[j]? = some (some x)) := by
  induction k with
  | zero => intro r m s r' m' _ h; simp [copyLoop] at h
  | succ k ih =>
    intro r m s r' m' hs h
    unfold copyLoop at h
    split at h
    · cases h
    · rename_i x hx
      split at h
      · cases h
      · rename_i m1 h1
        simp only [LoopRes.raised.injEq] at h
        obtain ⟨hr, hm⟩ := h
        subst hr hm
        obtain ⟨s1, hs1, hi, hh, _⟩ := placementNew_threw h1
        rw [hs] at hs1
        simp only [Option.some.injEq] at hs1
        subst hs1
        exact ⟨s, by rw [hh, set_same _ p _ hs], rfl, le_refl _, by omega, hi,
          fun _ _ => rfl, fun j h1 h2 => by omega⟩
      · rename_i m1 h1
        obtain ⟨s1, hs1, hi, hh⟩ := placementNew_ok h1
        rw [hs] at hs1
        simp only [Option.some.injEq] at hs1
        subst hs1
        have hp : p < m.heap.length := lt_of_getElem? hs
        have hs2 : m1.heap[p]? = some (some (s.set r (some x))) := by
          rw [hh, List.getElem?_set_self hp]
        obtain ⟨s', e1, e2, e3, e4, e5, e6, e7⟩ := ih (r + 1) m1 _ r' m' hs2 h
        refine ⟨s', by rw [e1, hh, List.set_set], by simpa using e2, by omega, by omega, ?_,
          ?_, ?_⟩
        · simpa using e5
        · intro j hj
          rw [e6 j (by omega), List.getElem?_set_ne (by omega)]
        · intro j h1 h2
          by_cases hjr : j = r
          · subst hjr
            exact ⟨x, by rw [e6 j (by omega), List.getElem?_set_self hi]⟩
          · exact e7 j (by omega) h2

/-- Shape of the heap when the copy loop completes. -/
theorem copyLoop_done_shape {E : ElemOps T W} {src : Option Nat} {p : Nat} (k : Nat) :
    ∀ (r : Nat) (m : Mem T W) (s : List (Option T)) (m' : Mem T W),
    m.heap[p]? = some (some s) →
    copyLoop E src (some p) k r m = LoopRes.done m' →
    ∃ s', m'.heap = m.heap.set p (some s') ∧ s'.length = s.length ∧
      (∀ j, j < r ∨ r + k ≤ j → s'[j]? = s[j]?) := by
  induction k with
  | zero =>
    intro r m s m' hs h
    simp only [copyLoop, LoopRes.done.injEq] at h
    subst h
    exact ⟨s, (set_same _ p _ hs).symm, rfl, fun _ _ => rfl⟩
  | succ k ih =>
    intro r m s m' hs h
    unfold copyLoop at h
    split at h
    · cases h
    · rename_i x hx
      split at h
      · cases h
      · cases h
      · rename_i m1 h1
        obtain ⟨s1, hs1, hi, hh⟩ := placementNew_ok h1
        rw [hs] at hs1
        simp only [Option.some.injEq] at hs1
        subst hs1
        have hp : p < m.heap.length := lt_of_getElem? hs
        have hs2 : m1.heap[p]? = some (some (s.set r (some x))) := by
          rw [hh, List.getElem?_set_self hp]
        obtain ⟨s', e1, e2, e3⟩ := ih (r + 1) m1 _ m' hs2 h
        refine ⟨s', by rw [e1, hh, List.set_set], by simpa using e2, ?_⟩
        intro j hj
        rw [e3 j (by omega), List.getElem?_set_ne (by omega)]

/-- Contents of the destination block when the copy loop completes, the source being
another block: slot `j` of the destination holds a copy of slot `j` of the source. -/
theorem copyLoop_done_content {E : ElemOps T W} {src : Option Nat} {p : Nat}
    (hne : src ≠ some p) (k : Nat) :
    ∀ (r : Nat) (m : Mem T W) (s : List (Option T)) (m' : Mem T W),
    m.heap[p]? = some (some s) →
    copyLoop E src (some p) k r m = LoopRes.done m' →
    ∃ s', m'.heap = m.heap.set p (some s') ∧ s'.length = s.length ∧ r + k ≤ s.length + (if k = 0 then r else 0) ∧
      (∀ j, r ≤ j → j < r + k → ∃ x, readSlot m src j = some x ∧ s'[j]? = some (some x)) := by
  induction k with
  | zero =>
    intro r m s m' hs h
    simp only [copyLoop, LoopRes.done.injEq] at h
    subst h
    refine ⟨s, (set_same _ p _ hs).symm, rfl, by simp, ?_⟩
    intro j h1 h2
    omega
  | succ k ih =>
    intro r m s m' hs h
    unfold copyLoop at h
    split at h
    · cases h
    · rename_i x hx
      split at h
      · cases h
      · cases h
      · rename_i m1 h1
        obtain ⟨s1, hs1, hi, hh⟩ := placementNew_ok h1
        rw [hs] at hs1
        simp only [Option.some.injEq] at hs1
        subst hs1
        have hp : p < m.heap.length := lt_of_getElem? hs
        have hs2 : m1.heap[p]? = some (some (s.set r (some x))) := by
          rw [hh, List.getElem?_set_self hp]
        obtain ⟨s', e1, e2, e3, e4⟩ := ih (r + 1) m1 _ m' hs2 h
        obtain ⟨s'', f1, f2, f3⟩ := copyLoop_done_shape k (r + 1) m1 _ m' hs2 h
        have hss : s'' = s' := by
          have := f1.symm.trans e1
          have h3 := congrArg (fun l => l[p]?) this
          simp only [List.getElem?_set_self (lt_of_getElem? hs2), Option.some.injEq] at h3
          exact h3
        subst hss
        simp only [List.length_set] at e2 e3 f2
        refine ⟨s'', by rw [e1, hh, List.set_set], e2, ?_, ?_⟩
        · simp only [Nat.add_one_ne_zero, if_false]
          by_cases hk : k = 0
          · subst hk; omega
          · simp only [hk, if_false] at e3; omega
        · intro j h1 h2
          by_cases hjr : j = r
          · subst hjr
            refine ⟨x, hx, ?_⟩
            rw [f3 j (by omega), List.getElem?_set_self hi]
          · obtain ⟨y, hy1, hy2⟩ := e4 j (by omega) (by omega)
            refine ⟨y, ?_, hy2⟩
            rw [← hy1]
            exact (readSlot_set_ne hh hne j).symm

/-! ## C1: strong guarantee of `Reserve` -/

/-- The heap after a failed reallocation: the old heap followed by the freed new block. -/
theorem heap_after_unwind {m m1 m4 : Mem T W} {p : Nat} {s : List (Option T)}
    (hp : p = m.heap.length) (h1 : m1.heap = m.heap ++ [some s])
    (h4 : m4.heap = m1.heap.set p none) : m4.heap = m.heap ++ [none] := by
  rw [h4, h1, hp, heap_set_top]

theorem readSlot_append_none (m m' : Mem T W) (h : m'.heap = m.heap ++ [none])
    (ptr : Option Nat) (i : Nat) : readSlot m' ptr i = readSlot m ptr i := by
  unfold readSlot
  cases ptr with
  | none => rfl
  | some q =>
    simp only [h]
    rcases Nat.lt_trichotomy q m.heap.length with hq | hq | hq
    · rw [List.getElem?_append_left hq]
    · subst hq
      simp
    · rw [List.getElem?_eq_none (by simp; omega), List.getElem?_eq_none (by omega)]

/-- The `catch` block of `Reserve` run on the new block at the top of the heap. -/
theorem Reserve_catch_top {v : Vector} {m m2 : Mem T W} {p r : Nat}
    {s s2 : List (Option T)} (hp : p = m.heap.length)
    (h2 : m2.heap = (m.heap ++ [some s]).set p (some s2))
    (hlive : ∀ j, j < r → ∃ x, s2[j]? = some (some x)) :
    ∃ m', Reserve_catch (some p) r v m2 = Res.threw (v, m') ∧ m'.heap = m.heap ++ [none] := by
  have hs2 : m2.heap[p]? = some (some s2) := by
    rw [h2, List.getElem?_set_self (by simp [hp])]
  obtain ⟨m3, s3, d1, d2, d3, -, -, -⟩ := DestroyFrom_ok r 0 m2 s2 hs2
    (fun j _ hj => hlive j (by omega))
  have hs3 : m3.heap[p]? = some (some s3) := by
    rw [d2, List.getElem?_set_self (lt_of_getElem? hs2)]
  obtain ⟨m4, f1, f2, -⟩ := freeBlock_ok hs3
  refine ⟨m4, ?_, ?_⟩
  · simp only [Reserve_catch, Destroy, d1, f1]
  · rw [f2, d2, h2, List.set_set, List.set_set, hp, heap_set_top]

/-- C1. Strong guarantee of `Reserve`: when `new_capacity > cap_`, the new block was
obtained and copy-constructing the existing element `k` into it throws, then
`k < size_`, `Reserve` throws, the three data members are what they were, and the
heap is the old heap followed by the freed new block, so that every element reads
as before. -/
theorem Reserve_strong_guarantee (E : ElemOps T W) (new_capacity : Nat) (v : Vector)
    (m : Mem T W) (new_data k : Nat) (m1 m2 : Mem T W)
    (hn : v.cap_ < new_capacity)
    (ha : allocBlock E new_capacity m = (some new_data, m1))
    (hc : copyLoop E v.data_ (some new_data) v.size_ 0 m1 = LoopRes.raised k m2) :
    k < v.size_ ∧ ∃ m', Reserve E new_capacity v m = Res.threw (v, m') ∧
      m'.heap = m.heap ++ [none] ∧ ∀ i, subscript v m' i = subscript v m i := by
  obtain ⟨hp, s, h1, -, -⟩ := allocBlock_some ha
  have hs1 : m1.heap[new_data]? = some (some s) := by
    rw [h1, hp]; simp
  obtain ⟨s2, e1, e2, -, e4, e5, -, e7⟩ := copyLoop_raised v.size_ 0 m1 s k m2 hs1 hc
  rw [h1] at e1
  obtain ⟨m', c1, c2⟩ := Reserve_catch_top (v := v) hp e1
    (fun j hj => e7 j (Nat.zero_le _) hj)
  refine ⟨by omega, m', ?_, c2, fun i => readSlot_append_none m m' c2 _ i⟩
  unfold Reserve
  rw [if_neg (by omega), ha]
  simp only [hc, c1]

/-- C1 at work: a three-element container whose second element fails to copy. -/
theorem Reserve_strong_guarantee_witness :
    1 < (vecOf [7, 8, 9] 0).size_ ∧
    ∃ m', Reserve (failAt 1) 5 (vecOf [7, 8, 9] 0) (memOf [7, 8, 9] 0)
        = Res.threw (vecOf [7, 8, 9] 0, m') ∧
      m'.heap = (memOf [7, 8, 9] 0).heap ++ [none] ∧
      ∀ i, subscript (vecOf [7, 8, 9] 0) m' i
        = subscript (vecOf [7, 8, 9] 0) (memOf [7, 8, 9] 0) i :=
  Reserve_strong_guarantee (failAt 1) 5 (vecOf [7, 8, 9] 0) (memOf [7, 8, 9] 0) 1 1
    { heap := [some [some 7, some 8, some 9], some [none, none, none, none, none]],
      world := 0, log := [Event.alloc 1 20] }
    { heap := [some [some 7, some 8, some 9], some [some 7, none, none, none, none]],
      world := 2, log := [Event.alloc 1 20, Event.ctor 1 0] }
    (by decide) (by decide) (by decide)

/-! ## C2: the growing `PushBack` when a construction throws -/

/-- The `catch` block of `PushBack` run on the new block at the top of the heap after a
copy of an existing element threw (`r_ind != size_`). -/
theorem PushBack_catch_top {v : Vector} {m m2 : Mem T W} {p r : Nat}
    {s s2 : List (Option T)} (hp : p = m.heap.length)
    (h2 : m2.heap = (m.heap ++ [some s]).set p (some s2))
    (hlive : ∀ j, j < r → ∃ x, s2[j]? = some (some x)) (hr : r ≠ v.size_) :
    ∃ m', PushBack_catch (some p) r v m2 = Res.threw (v, m') ∧ m'.heap = m.heap ++ [none] := by
  have hs2 : m2.heap[p]? = some (some s2) := by
    rw [h2, List.getElem?_set_self (by simp [hp])]
  obtain ⟨m3, s3, d1, d2, d3, -, -, -⟩ := DestroyFrom_ok r 0 m2 s2 hs2
    (fun j _ hj => hlive j (by omega))
  have hs3 : m3.heap[p]? = some (some s3) := by
    rw [d2, List.getElem?_set_self (lt_of_getElem? hs2)]
  obtain ⟨m5, f1, f2, -⟩ := freeBlock_ok hs3
  refine ⟨m5, ?_, ?_⟩
  · simp only [PushBack_catch, Destroy, d1, if_neg hr, f1]
  · rw [f2, d2, h2, List.set_set, List.set_set, hp, heap_set_top]

/-- The `catch` block of `PushBack` entered with `r_ind == size_`, that is after the
construction of the new value threw: slot `size_` of the new block is raw, and the
destructor call on it is undefined behaviour. -/
theorem PushBack_catch_raw {v : Vector} {m : Mem T W} {p : Nat} {s : List (Option T)}
    (hs : m.heap[p]? = some (some s)) (hraw : s[v.size_]? = some none) :
    PushBack_catch (some p) v.size_ v m = Res.ub := by
  unfold PushBack_catch
  cases hd : Destroy (some p) v.size_ m with
  | none => rfl
  | some m1 =>
    obtain ⟨s1, k1, k2⟩ := DestroyFrom_keeps v.size_ 0 m m1 s hs hd
    have hraw1 : s1[v.size_]? = some none := by
      rw [k2 v.size_ (by omega), hraw]
    simp only [if_pos, destroyAt_raw k1 hraw1]

/-- The growing append, for both overloads, when the copy of the existing element `k`
into the new block throws: `PushBack` throws, the three data members are what they
were and the heap is the old heap followed by the freed new block. -/
theorem PushBackWith_copy_throw {E : ElemOps T W} {ctor : T → W → Bool × W} {value : T}
    {v : Vector} {m m1 m2 : Mem T W} {new_data k : Nat} (hfull : ¬ v.size_ < v.cap_)
    (ha : allocBlock E (if v.cap_ = 0 then 1 else (v.cap_ * 2) % SIZE_MOD) m
      = (some new_data, m1))
    (hc : copyLoop E v.data_ (some new_data) v.size_ 0 m1 = LoopRes.raised k m2) :
    ∃ m', PushBackWith E ctor value v m = Res.threw (v, m') ∧ m'.heap = m.heap ++ [none] := by
  obtain ⟨hp, s, h1, -, -⟩ := allocBlock_some ha
  have hs1 : m1.heap[new_data]? = some (some s) := by
    rw [h1, hp]; simp
  obtain ⟨s2, e1, e2, -, e4, e5, -, e7⟩ := copyLoop_raised v.size_ 0 m1 s k m2 hs1 hc
  rw [h1] at e1
  obtain ⟨m', c1, c2⟩ := PushBack_catch_top (v := v) hp e1
    (fun j hj => e7 j (Nat.zero_le _) hj) (by omega)
  refine ⟨m', ?_, c2⟩
  unfold PushBackWith
  rw [if_neg hfull]
  simp only [ha, hc, c1]

/-- The growing append, for both overloads, when every copy into the new block is done
and the construction of the new value throws: the `catch` block runs a destructor on
the slot of the new value, where no object was constructed, and the call has undefined
behaviour; the exception does not propagate from a defined execution. -/
theorem PushBackWith_value_throw {E : ElemOps T W} {ctor : T → W → Bool × W} {value : T}
    {v : Vector} {m m1 m2 m3 : Mem T W} {new_data : Nat} (hfull : ¬ v.size_ < v.cap_)
    (ha : allocBlock E (if v.cap_ = 0 then 1 else (v.cap_ * 2) % SIZE_MOD) m
      = (some new_data, m1))
    (hc : copyLoop E v.data_ (some new_data) v.size_ 0 m1 = LoopRes.done m2)
    (hn : placementNew ctor (some new_data) v.size_ value m2 = Res.threw m3) :
    PushBackWith E ctor value v m = Res.ub := by
  obtain ⟨hp, s, h1, -, hrawall⟩ := allocBlock_some ha
  have hs1 : m1.heap[new_data]? = some (some s) := by
    rw [h1, hp]; simp
  obtain ⟨s2, e1, e2, e3⟩ := copyLoop_done_shape v.size_ 0 m1 s m2 hs1 hc
  obtain ⟨s2', t1, t2, t3, -⟩ := placementNew_threw hn
  have hs2 : m2.heap[new_data]? = some (some s2) := by
    rw [e1, List.getElem?_set_self (lt_of_getElem? hs1)]
  rw [hs2] at t1
  simp only [Option.some.injEq] at t1
  subst t1
  have hs3 : m3.heap[new_data]? = some (some s2) := by
    rw [t3, hs2]
  have hraw : s2[v.size_]? = some none := by
    rw [e3 v.size_ (by omega)]
    exact hrawall v.size_ (by omega)
  unfold PushBackWith
  rw [if_neg hfull]
  simp only [ha, hc, hn]
  exact PushBack_catch_raw hs3 hraw

/-- C2 on the code: `PushBack(4)`, by either overload, on the full container
`{7, 8, 9}` with an element type whose fourth construction throws. The three copies
into the new block succeed and the construction of the new value throws; the call
does not end by propagating the exception with the container unchanged: it has
undefined behaviour (in its `catch` block). A copy of an existing element that throws
is, on the same container, propagated with the container unchanged. -/
theorem PushBack_value_throw_not_propagated :
    PushBack (failAt 3) 4 (vecOf [7, 8, 9] 0) (memOf [7, 8, 9] 0) = Res.ub ∧
    PushBackMove (failAt 3) 4 (vecOf [7, 8, 9] 0) (memOf [7, 8, 9] 0) = Res.ub ∧
    PushBack (failAt 2) 4 (vecOf [7, 8, 9] 0) (memOf [7, 8, 9] 0)
      = Res.threw (vecOf [7, 8, 9] 0, memCopyThrow) ∧
    memCopyThrow.heap = (memOf [7, 8, 9] 0).heap ++ [none] := by
  decide

/-! ## Frame and inversion lemmas -/

theorem placementNew_ok_ptr {ctor : T → W → Bool × W} {ptr : Option Nat} {i : Nat} {x : T}
    {m m' : Mem T W} (h : placementNew ctor ptr i x m = Res.ok m') :
    ∃ p s, ptr = some p ∧ m.heap[p]? = some (some s) ∧ i < s.length ∧
      m'.heap = m.heap.set p (some (s.set i (some x))) := by
  cases ptr with
  | none => cases h
  | some p =>
    obtain ⟨s, h1, h2, h3⟩ := placementNew_ok h
    exact ⟨p, s, rfl, h1, h2, h3⟩

theorem placementNew_threw_ptr {ctor : T → W → Bool × W} {ptr : Option Nat} {i : Nat} {x : T}
    {m m' : Mem T W} (h : placementNew ctor ptr i x m = Res.threw m') :
    m'.heap = m.heap ∧ m'.log = m.log := by
  cases ptr with
  | none => cases h
  | some p =>
    obtain ⟨s, -, -, h3, h4⟩ := placementNew_threw h
    exact ⟨h3, h4⟩

/-- The loop of `Destroy`, when it goes through, touches no block but its own. -/
theorem DestroyFrom_frame {ptr : Option Nat} (k : Nat) : ∀ (i : Nat) (m m' : Mem T W),
    DestroyFrom ptr k i m = some m' →
    m'.heap.length = m.heap.length ∧ m'.world = m.world ∧
      ∀ p, ptr ≠ some p → m'.heap[p]? = m.heap[p]? := by
  induction k with
  | zero =>
    intro i m m' h
    simp only [DestroyFrom, Option.some.injEq] at h
    subst h
    exact ⟨rfl, rfl, fun _ _ => rfl⟩
  | succ k ih =>
    intro i m m' h
    unfold DestroyFrom at h
    split at h
    · cases h
    · rename_i m1 h1
      obtain ⟨q, s, hq, hs, hi, hh, hw⟩ := destroyAt_some h1
      obtain ⟨e1, e2, e3⟩ := ih (i + 1) m1 m' h
      refine ⟨by rw [e1, hh, List.length_set], by rw [e2, hw], ?_⟩
      intro p hp
      rw [e3 p hp, hh, List.getElem?_set_ne]
      intro e
      exact hp (by rw [hq, e])

theorem freeBlock_frame {ptr : Option Nat} {m m' : Mem T W} (h : freeBlock ptr m = some m') :
    m'.heap.length = m.heap.length ∧ m'.world = m.world ∧
      (∀ p, ptr ≠ some p → m'.heap[p]? = m.heap[p]?) ∧
      (∀ p, ptr = some p → m'.heap = m.heap.set p none) := by
  cases ptr with
  | none =>
    simp only [freeBlock, Option.some.injEq] at h
    subst h
    exact ⟨rfl, rfl, fun _ _ => rfl, fun _ hp => by cases hp⟩
  | some q =>
    unfold freeBlock at h
    simp only at h
    split at h
    · simp only [Option.some.injEq] at h
      subst h
      refine ⟨by simp, rfl, ?_, ?_⟩
      · intro p hp
        simp only
        rw [List.getElem?_set_ne]
        intro e
        exact hp (by rw [e])
      · intro p hp
        simp only [Option.some.injEq] at hp
        subst hp
        rfl
    · cases h

/-- Releasing the old storage (`Destroy(data_, size_); delete[] data_;`) touches no
other block. -/
theorem release_frame {ptr : Option Nat} {r : Nat} {m m3 m4 : Mem T W}
    (hd : Destroy ptr r m = some m3) (hf : freeBlock ptr m3 = some m4) :
    m4.heap.length = m.heap.length ∧ ∀ p, ptr ≠ some p → m4.heap[p]? = m.heap[p]? := by
  obtain ⟨d1, -, d3⟩ := DestroyFrom_frame r 0 m m3 hd
  obtain ⟨f1, -, f3, -⟩ := freeBlock_frame hf
  exact ⟨by rw [f1, d1], fun p hp => by rw [f3 p hp, d3 p hp]⟩

/-- The ways `Reserve` returns. -/
theorem Reserve_ok_inv {E : ElemOps T W} {n : Nat} {v v' : Vector} {m m' : Mem T W}
    (h : Reserve E n v m = Res.ok (v', m')) :
    (n ≤ v.cap_ ∧ v' = v ∧ m' = m) ∨
    (v.cap_ < n ∧ ∃ p m1 m2 m3,
      allocBlock E n m = (some p, m1) ∧
      copyLoop E v.data_ (some p) v.size_ 0 m1 = LoopRes.done m2 ∧
      Destroy v.data_ v.size_ m2 = some m3 ∧ freeBlock v.data_ m3 = some m' ∧
      v' = { v with data_ := some p, cap_ := n }) := by
  unfold Reserve at h
  split at h
  · rename_i hle
    simp only [Res.ok.injEq, Prod.mk.injEq] at h
    exact Or.inl ⟨hle, h.1.symm, h.2.symm⟩
  · rename_i hle
    right
    refine ⟨by omega, ?_⟩
    split at h
    · cases h
    · rename_i p m1 ha
      split at h
      · cases h
      · rename_i r m2 hc
        unfold Reserve_catch at h
        split at h
        · cases h
        · split at h <;> cases h
      · rename_i m2 hc
        split at h
        · cases h
        · rename_i m3 hd
          split at h
          · cases h
          · rename_i m4 hf
            simp only [Res.ok.injEq, Prod.mk.injEq] at h
            obtain ⟨hv, hm⟩ := h
            subst hm
            exact ⟨p, m1, m2, m3, ha, hc, hd, hf, hv.symm⟩

/-- The ways `PushBack` returns. -/
theorem PushBackWith_ok_inv {E : ElemOps T W} {ctor : T → W → Bool × W} {x : T}
    {v v' : Vector} {m m' : Mem T W} (h : PushBackWith E ctor x v m = Res.ok (v', m')) :
    (v.size_ < v.cap_ ∧ placementNew ctor v.data_ v.size_ x m = Res.ok m' ∧
      v' = { v with size_ := (v.size_ + 1) % SIZE_MOD }) ∨
    (¬ v.size_ < v.cap_ ∧ ∃ p m1 m2 m3 m4,
      allocBlock E (if v.cap_ = 0 then 1 else (v.cap_ * 2) % SIZE_MOD) m = (some p, m1) ∧
      copyLoop E v.data_ (some p) v.size_ 0 m1 = LoopRes.done m2 ∧
      placementNew ctor (some p) v.size_ x m2 = Res.ok m3 ∧
      Destroy v.data_ v.size_ m3 = some m4 ∧ freeBlock v.data_ m4 = some m' ∧
      v' = { data_ := some p, size_ := (v.size_ + 1) % SIZE_MOD,
             cap_ := if v.cap_ = 0 then 1 else (v.cap_ * 2) % SIZE_MOD }) := by
  unfold PushBackWith at h
  split at h
  · rename_i hlt
    left
    split at h
    · cases h
    · cases h
    · rename_i m1 h1
      simp only [Res.ok.injEq, Prod.mk.injEq] at h
      obtain ⟨hv, hm⟩ := h
      subst hm
      exact ⟨hlt, h1, hv.symm⟩
  · rename_i hlt
    right
    refine ⟨hlt, ?_⟩
    simp only at h
    split at h
    · cases h
    · rename_i p m1 ha
      split at h
      · cases h
      · unfold PushBack_catch at h
        split at h
        · cases h
        · split at h
          · cases h
          · split at h <;> cases h
      · rename_i m2 hc
        split at h
        · cases h
        · unfold PushBack_catch at h
          split at h
          · cases h
          · split at h
            · cases h
            · split at h <;> cases h
        · rename_i m3 hn
          split at h
          · cases h
          · rename_i m4 hd
            split at h
            · cases h
            · rename_i m5 hf
              simp only [Res.ok.injEq, Prod.mk.injEq] at h
              obtain ⟨hv, hm⟩ := h
              subst hm
              exact ⟨p, m1, m2, m3, m4, ha, hc, hn, hd, hf, hv.symm⟩

/-! ## C5: growth policy -/

/-- C5. Growth policy, for both overloads: a `PushBack` that returns leaves `cap_` as
it was when `size_ < cap_`, and when `size_ == cap_` and doubling `cap_` does not
overflow `size_t` it sets `cap_` to `max(1, 2 * cap_)`. -/
theorem PushBack_growth_policy (E : ElemOps T W) (ctor : T → W → Bool × W) (value : T)
    (v v' : Vector) (m m' : Mem T W)
    (h : PushBackWith E ctor value v m = Res.ok (v', m')) :
    (Size v < Capacity v → Capacity v' = Capacity v) ∧
    (Size v = Capacity v → Capacity v * 2 < SIZE_MOD →
      Capacity v' = max 1 (2 * Capacity v)) := by
  unfold Size Capacity
  rcases PushBackWith_ok_inv h with ⟨hlt, -, hv⟩ | ⟨hlt, p, m1, m2, m3, m4, -, -, -, -, -, hv⟩
  · subst hv
    exact ⟨fun _ => rfl, fun he _ => by omega⟩
  · subst hv
    refine ⟨fun hc => absurd hc hlt, fun _ hov => ?_⟩
    simp only
    by_cases hz : v.cap_ = 0
    · simp [hz]
    · rw [if_neg hz, Nat.mod_eq_of_lt hov]
      omega

/-- C5 at work: an append into spare capacity, and an append into a full container. -/
theorem PushBack_growth_policy_witness :
    (PushBackWith (failAt 100) (failAt 100).copyCtor 4 (vecOf [7, 8] 1) (memOf [7, 8] 1)
        = Res.ok (vecOf [7, 8, 4] 0,
            { heap := [some [some 7, some 8, some 4]], world := 1, log := [Event.ctor 0 2] }) ∧
      Capacity (vecOf [7, 8, 4] 0) = Capacity (vecOf [7, 8] 1)) ∧
    Capacity ({ data_ := some 1, size_ := 4, cap_ := 6 } : Vector)
      = max 1 (2 * Capacity (vecOf [7, 8, 9] 0)) :=
  ⟨⟨by decide,
    (PushBack_growth_policy (failAt 100) (failAt 100).copyCtor 4 (vecOf [7, 8] 1)
      (vecOf [7, 8, 4] 0) (memOf [7, 8] 1)
      { heap := [some [some 7, some 8, some 4]], world := 1, log := [Event.ctor 0 2] }
      (by decide)).1 (by decide)⟩,
   (PushBack_growth_policy (failAt 100) (failAt 100).copyCtor 4 (vecOf [7, 8, 9] 0)
      { data_ := some 1, size_ := 4, cap_ := 6 } (memOf [7, 8, 9] 0)
      { heap := [none, some [some 7, some 8, some 9, some 4, none, none]], world := 4,
        log := [Event.alloc 1 24, Event.ctor 1 0, Event.ctor 1 1, Event.ctor 1 2,
                Event.ctor 1 3, Event.dtor 0 0, Event.dtor 0 1,
                Event.dtor 0 2, Event.free 0] }
      (by decide)).2 (by decide) (by decide)⟩

/-! ## Reading elements -/

theorem readSlot_of_block {m : Mem T W} {p i : Nat} {s : List (Option T)} {x : T}
    (hs : m.heap[p]? = some (some s)) (hx : s[i]? = some (some x)) :
    readSlot m (some p) i = some x := by
  simp only [readSlot, hs, hx]

theorem readSlot_eq_join {m : Mem T W} {p i : Nat} {s : List (Option T)}
    (hs : m.heap[p]? = some (some s)) : readSlot m (some p) i = (s[i]?).join := by
  simp only [readSlot, hs]
  cases hsi : s[i]? with
  | none => rfl
  | some o => cases o <;> rfl

/-- Appending blocks to the heap does not disturb what can be read. -/
theorem readSlot_append {m m1 : Mem T W} {l : List (Option (List (Option T)))}
    (h1 : m1.heap = m.heap ++ l) {ptr : Option Nat} {i : Nat} {x : T}
    (hx : readSlot m ptr i = some x) : readSlot m1 ptr i = some x := by
  obtain ⟨q, s, hq, hs, hsi⟩ := readSlot_some hx
  subst hq
  refine readSlot_of_block (s := s) ?_ hsi
  rw [h1, List.getElem?_append_left (lt_of_getElem? hs)]
  exact hs

/-- A non-empty container that holds `ys` has its data in a live block. -/
theorem Holds_data {m : Mem T W} {v : Vector} {ys : List T} (h : Holds m v ys)
    (hpos : 0 < v.size_) :
    ∃ q s, v.data_ = some q ∧ m.heap[q]? = some (some s) ∧ v.size_ ≤ s.length := by
  obtain ⟨hl, hr⟩ := h
  have hlast := hr (v.size_ - 1) (by omega)
  have hy : ∃ y, ys[v.size_ - 1]? = some y := by
    rw [List.getElem?_eq_getElem (by omega)]
    exact ⟨_, rfl⟩
  obtain ⟨y, hy⟩ := hy
  rw [hy] at hlast
  obtain ⟨q, s, hq, hs, hsi⟩ := readSlot_some hlast
  have := lt_of_getElem? hsi
  exact ⟨q, s, hq, hs, by omega⟩

/-- The slots of a container that holds a list are live objects. -/
theorem Holds_live {m : Mem T W} {v : Vector} {ys : List T} {q : Nat} {s : List (Option T)}
    (h : Holds m v ys) (hq : v.data_ = some q) (hs : m.heap[q]? = some (some s)) :
    ∀ j, j < v.size_ → ∃ x, s[j]? = some (some x) := by
  intro j hj
  have hr := h.2 j hj
  rw [List.getElem?_eq_getElem (by rw [h.1]; exact hj)] at hr
  unfold subscript at hr
  obtain ⟨q', s', hq', hs', hx⟩ := readSlot_some hr
  rw [hq] at hq'
  cases hq'
  rw [hs] at hs'
  cases hs'
  exact ⟨_, hx⟩

theorem slots_le (n sz : Nat) : (n * sz) % SIZE_MOD / sz ≤ n := by
  rcases Nat.eq_zero_or_pos sz with h | h
  · subst h; simp
  · calc (n * sz) % SIZE_MOD / sz ≤ (n * sz) / sz := Nat.div_le_div_right (Nat.mod_le _ _)
      _ = n := Nat.mul_div_cancel n h

theorem slots_lt (n sz : Nat) : (n * sz) % SIZE_MOD / sz < SIZE_MOD :=
  lt_of_le_of_lt (Nat.div_le_self _ _) (Nat.mod_lt _ (by unfold SIZE_MOD; positivity))

/-! ## C6: postcondition of `Reserve` -/

/-- C6. Postcondition of `Reserve` on a container holding `ys`: a call that returns
changes nothing when `new_capacity <= cap_`; otherwise `cap_` becomes exactly
`new_capacity`, `size_` is unchanged and the container still holds `ys`, index by
index. -/
theorem Reserve_postcondition (E : ElemOps T W) (new_capacity : Nat) (v v' : Vector)
    (m m' : Mem T W) (ys : List T) (hys : Holds m v ys)
    (h : Reserve E new_capacity v m = Res.ok (v', m')) :
    (new_capacity ≤ Capacity v → v' = v ∧ m' = m) ∧
    (Capacity v < new_capacity →
      Capacity v' = new_capacity ∧ Size v' = Size v ∧ Holds m' v' ys) := by
  unfold Size Capacity
  rcases Reserve_ok_inv h with ⟨hle, hv, hm⟩ | ⟨hlt, p, m1, m2, m3, ha, hc, hd, hf, hv⟩
  · exact ⟨fun _ => ⟨hv, hm⟩, fun hc => by omega⟩
  · refine ⟨fun hc => by omega, fun _ => ?_⟩
    subst hv
    refine ⟨rfl, rfl, hys.1, ?_⟩
    intro i hi
    simp only at hi
    obtain ⟨q, sq, hq, hsq, -⟩ := Holds_data hys (by omega)
    obtain ⟨hp, s, h1, -, -⟩ := allocBlock_some ha
    have hne : v.data_ ≠ some p := by
      rw [hq, hp]
      intro e
      simp only [Option.some.injEq] at e
      have := lt_of_getElem? hsq
      omega
    have hs1 : m1.heap[p]? = some (some s) := by
      rw [h1, hp]; simp
    obtain ⟨s2, e1, e2, -, e4⟩ := copyLoop_done_content hne v.size_ 0 m1 s m2 hs1 hc
    obtain ⟨x, hx1, hx2⟩ := e4 i (by omega) (by omega)
    have hget : readSlot m v.data_ i = some x := by
      have h0 := hys.2 i hi
      unfold subscript at h0
      cases hr : readSlot m v.data_ i with
      | none =>
        rw [hr] at h0
        rw [List.getElem?_eq_getElem (by rw [hys.1]; exact hi)] at h0
        cases h0
      | some y =>
        have := readSlot_append h1 hr
        rw [hx1] at this
        rw [Option.some.inj this]
    have hs' : m'.heap[p]? = some (some s2) := by
      rw [(release_frame hd hf).2 p hne, e1, List.getElem?_set_self (lt_of_getElem? hs1)]
    have h0 := hys.2 i hi
    unfold subscript at h0 ⊢
    rw [← h0, hget]
    exact readSlot_of_block hs' hx2

/-- C6 at work: a three-element container reserved to five slots. -/
theorem Reserve_postcondition_witness :
    Holds (memOf [7, 8, 9] 0) (vecOf [7, 8, 9] 0) [7, 8, 9] ∧
    Reserve (failAt 100) 5 (vecOf [7, 8, 9] 0) (memOf [7, 8, 9] 0)
      = Res.ok (vecReserved, memReserved) ∧
    Capacity vecReserved = 5 ∧ Size vecReserved = Size (vecOf [7, 8, 9] 0) ∧
    Holds memReserved vecReserved [7, 8, 9] :=
  have hys : Holds (memOf [7, 8, 9] 0) (vecOf [7, 8, 9] 0) [7, 8, 9] := by
    unfold Holds; decide
  ⟨hys, by decide,
   (Reserve_postcondition (failAt 100) 5 (vecOf [7, 8, 9] 0) vecReserved (memOf [7, 8, 9] 0)
      memReserved [7, 8, 9] hys (by decide)).2 (by decide)⟩

/-! ## C7: checked access -/

/-- C7. Checked access on a container holding `ys`: `At(index)` signals
`std::out_of_range` exactly when `index >= size_`; when `index < size_` it yields the
element that `operator[](index)` yields; and in both cases the data members and the
memory after the call are those before it. -/
theorem At_checked (v : Vector) (m : Mem T W) (index : Nat) (ys : List T)
    (hys : Holds m v ys) :
    ((∃ st, At v m index = AtRes.out_of_range st) ↔ index ≥ Size v) ∧
    (index ≥ Size v → At v m index = AtRes.out_of_range (v, m)) ∧
    (index < Size v →
      ∃ x, subscript v m index = some x ∧ At v m index = AtRes.ref x (v, m)) := by
  have hge : index ≥ Size v → At v m index = AtRes.out_of_range (v, m) := by
    intro h
    unfold At
    rw [if_pos h]
  have hlt : index < Size v →
      ∃ x, subscript v m index = some x ∧ At v m index = AtRes.ref x (v, m) := by
    intro h
    have h0 := hys.2 index h
    unfold Size at h
    rw [List.getElem?_eq_getElem (by rw [hys.1]; exact h)] at h0
    refine ⟨_, h0, ?_⟩
    unfold At
    rw [if_neg (by unfold Size; omega)]
    unfold subscript at h0
    simp only [h0]
  refine ⟨⟨?_, fun h => ⟨_, hge h⟩⟩, hge, hlt⟩
  rintro ⟨st, hst⟩
  by_contra hc
  obtain ⟨x, -, hx⟩ := hlt (by omega)
  rw [hx] at hst
  cases hst

/-- C7 at work: the container of the test, `{1, 2, 3}`, read at index 5 and at index 1. -/
theorem At_checked_witness :
    Holds (memOf [1, 2, 3] 0) (vecOf [1, 2, 3] 0) [1, 2, 3] ∧
    At (vecOf [1, 2, 3] 0) (memOf [1, 2, 3] 0) 5
      = AtRes.out_of_range (vecOf [1, 2, 3] 0, memOf [1, 2, 3] 0) ∧
    ∃ x, subscript (vecOf [1, 2, 3] 0) (memOf [1, 2, 3] 0) 1 = some x ∧
      At (vecOf [1, 2, 3] 0) (memOf [1, 2, 3] 0) 1
        = AtRes.ref x (vecOf [1, 2, 3] 0, memOf [1, 2, 3] 0) :=
  have hys : Holds (memOf [1, 2, 3] 0) (vecOf [1, 2, 3] 0) [1, 2, 3] := by
    unfold Holds; decide
  ⟨hys,
   (At_checked (vecOf [1, 2, 3] 0) (memOf [1, 2, 3] 0) 5 [1, 2, 3] hys).2.1 (by decide),
   (At_checked (vecOf [1, 2, 3] 0) (memOf [1, 2, 3] 0) 1 [1, 2, 3] hys).2.2 (by decide)⟩

/-! ## C4: the append law -/

/-- What a returning `PushBack` does to a well-formed container holding `ys`. -/
theorem PushBackWith_ok_spec {E : ElemOps T W} {ctor : T → W → Bool × W} {x : T}
    {v v' : Vector} {m m' : Mem T W} {ys : List T} (hwf : WF m v) (hys : Holds m v ys)
    (h : PushBackWith E ctor x v m = Res.ok (v', m')) :
    WF m' v' ∧ Holds m' v' (ys ++ [x]) ∧ v'.size_ = v.size_ + 1 := by
  obtain ⟨hsc, hcap, hptr⟩ := hwf
  obtain ⟨hl, hr⟩ := hys
  have hmod : (1 : Nat) < SIZE_MOD := by unfold SIZE_MOD; norm_num
  rcases PushBackWith_ok_inv h with ⟨hlt, hn, hv⟩ |
    ⟨hlt, p, m1, m2, m3, m4, ha, hc, hn, hd, hf, hv⟩
  · obtain ⟨q, s, hq, hs, hi, hh⟩ := placementNew_ok_ptr hn
    have hsz : (v.size_ + 1) % SIZE_MOD = v.size_ + 1 := Nat.mod_eq_of_lt (by omega)
    subst hv
    rw [hsz]
    refine ⟨⟨by simp only; omega, hcap, ?_⟩, ⟨by simp [hl], ?_⟩, rfl⟩
    · intro q' hq'
      rw [hh, List.length_set]
      exact hptr q' hq'
    · intro i hi'
      simp only at hi'
      unfold subscript
      simp only [hq]
      rw [readSlot_set_eq hh (lt_of_getElem? hs)]
      by_cases hiv : i = v.size_
      · subst hiv
        rw [List.getElem?_set_self hi, ← hl]
        simp
      · rw [List.getElem?_set_ne (by omega), List.getElem?_append_left (by omega),
          ← hr i (by omega)]
        unfold subscript
        rw [hq, readSlot_eq_join hs]
  · obtain ⟨hp, s, h1, hslen, -⟩ := allocBlock_some ha
    have hne : v.data_ ≠ some p := by
      intro e
      have := hptr p e
      omega
    have hs1 : m1.heap[p]? = some (some s) := by
      rw [h1, hp]; simp
    obtain ⟨s2, e1, e2, -, e4⟩ := copyLoop_done_content hne v.size_ 0 m1 s m2 hs1 hc
    have hs2 : m2.heap[p]? = some (some s2) := by
      rw [e1, List.getElem?_set_self (lt_of_getElem? hs1)]
    obtain ⟨s2', t1, t2, t3⟩ := placementNew_ok hn
    rw [hs2] at t1
    simp only [Option.some.injEq] at t1
    subst t1
    have hs3 : m3.heap[p]? = some (some (s2.set v.size_ (some x))) := by
      rw [t3, List.getElem?_set_self (lt_of_getElem? hs2)]
    obtain ⟨f1, f2⟩ := release_frame hd hf
    have hs' : m'.heap[p]? = some (some (s2.set v.size_ (some x))) := by
      rw [f2 p hne, hs3]
    have hslots : v.size_ < (if v.cap_ = 0 then 1 else v.cap_ * 2 % SIZE_MOD) ∧
        v.size_ + 1 < SIZE_MOD := by
      have a1 := slots_le (if v.cap_ = 0 then 1 else v.cap_ * 2 % SIZE_MOD) E.sizeofT
      have a2 := slots_lt (if v.cap_ = 0 then 1 else v.cap_ * 2 % SIZE_MOD) E.sizeofT
      rw [← hslen] at a1 a2
      omega
    have hsz : (v.size_ + 1) % SIZE_MOD = v.size_ + 1 := Nat.mod_eq_of_lt hslots.2
    subst hv
    rw [hsz]
    refine ⟨⟨by simp only; omega, ?_, ?_⟩, ⟨by simp [hl], ?_⟩, rfl⟩
    · simp only
      split
      · exact hmod
      · exact Nat.mod_lt _ (by omega)
    · intro q' hq'
      simp only [Option.some.injEq] at hq'
      subst hq'
      exact lt_of_getElem? hs'
    · intro i hi'
      simp only at hi'
      unfold subscript
      simp only
      rw [readSlot_eq_join hs']
      by_cases hiv : i = v.size_
      · subst hiv
        rw [List.getElem?_set_self t2, ← hl]
        simp
      · rw [List.getElem?_set_ne (by omega), List.getElem?_append_left (by omega)]
        obtain ⟨y, hy1, hy2⟩ := e4 i (by omega) (by omega)
        rw [hy2]
        have h0 := hr i (by omega)
        unfold subscript at h0
        rw [← h0]
        cases hrd : readSlot m v.data_ i with
        | none =>
          rw [hrd] at h0
          rw [List.getElem?_eq_getElem (by omega)] at h0
          cases h0
        | some z =>
          have := readSlot_append h1 hrd
          rw [hy1] at this
          rw [Option.some.inj this]
          rfl

/-- The append loop on a well-formed container holding `ys`. -/
theorem pushAll_ok_spec {E : ElemOps T W} (xs : List T) :
    ∀ (v v' : Vector) (m m' : Mem T W) (ys : List T), WF m v → Holds m v ys →
    pushAll E xs v m = Res.ok (v', m') →
    WF m' v' ∧ Holds m' v' (ys ++ xs) ∧ v'.size_ = v.size_ + xs.length := by
  induction xs with
  | nil =>
    intro v v' m m' ys hwf hys h
    simp only [pushAll, Res.ok.injEq, Prod.mk.injEq] at h
    obtain ⟨hv, hm⟩ := h
    subst hv hm
    exact ⟨hwf, by simpa using hys, rfl⟩
  | cons x xs ih =>
    intro v v' m m' ys hwf hys h
    cases h1 : PushBack E x v m with
    | ok st =>
      obtain ⟨v1, m1⟩ := st
      simp only [pushAll, h1] at h
      obtain ⟨w1, y1, z1⟩ := PushBackWith_ok_spec hwf hys h1
      obtain ⟨w2, y2, z2⟩ := ih v1 v' m1 m' _ w1 y1 h
      refine ⟨w2, by simpa using y2, ?_⟩
      rw [z2, z1, List.length_cons]
      omega
    | threw st => simp [pushAll, h1] at h
    | ub => simp [pushAll, h1] at h

/-- C4. Append law: on a container of the program holding `ys`, when `PushBack` is
called for each element of `xs` in order and every call returns, `size_` has grown by
the length of `xs` and the container holds `ys` followed by `xs`: the original
elements at their indices, then the appended ones in order. In particular, starting
from a default-constructed container, `size_` is the number of appended elements and
`operator[](i)` yields the `i`-th of them. -/
theorem PushBack_append_law (E : ElemOps T W) (xs ys : List T) (v v' : Vector)
    (m m' : Mem T W) (hwf : WF m v) (hys : Holds m v ys)
    (h : pushAll E xs v m = Res.ok (v', m')) :
    Size v' = Size v + xs.length ∧ Holds m' v' (ys ++ xs) ∧
    (∀ i, i < Size v → subscript v' m' i = subscript v m i) ∧
    (∀ i, i < xs.length → subscript v' m' (Size v + i) = xs[i]?) ∧
    (v = Vector.default →
      Size v' = xs.length ∧ ∀ i, i < xs.length → subscript v' m' i = xs[i]?) := by
  obtain ⟨-, hh, hs⟩ := pushAll_ok_spec xs v v' m m' ys hwf hys h
  unfold Size
  have hold : ∀ i, i < v.size_ → subscript v' m' i = subscript v m i := by
    intro i hi
    rw [hh.2 i (by omega), hys.2 i hi, List.getElem?_append_left (by rw [hys.1]; exact hi)]
  have hnew : ∀ i, i < xs.length → subscript v' m' (v.size_ + i) = xs[i]? := by
    intro i hi
    rw [hh.2 (v.size_ + i) (by omega), ← hys.1, List.getElem?_append_right (by omega)]
    simp
  refine ⟨hs, hh, hold, hnew, ?_⟩
  intro hv
  subst hv
  refine ⟨by simpa [Vector.default] using hs, fun i hi => ?_⟩
  have := hnew i hi
  simpa [Vector.default] using this

/-- C4 at work: the appends of the test, `1, 2, 3` into a default-constructed
container. -/
theorem PushBack_append_law_witness :
    WF emptyMem Vector.default ∧ Holds emptyMem Vector.default [] ∧
    pushAll (failAt 100) [1, 2, 3] Vector.default emptyMem = Res.ok (vecPushed, memPushed) ∧
    Size vecPushed = 3 ∧ ∀ i, i < 3 → subscript vecPushed memPushed i = [1, 2, 3][i]? :=
  have hwf : WF emptyMem Vector.default := by
    unfold WF; decide
  have hys : Holds emptyMem Vector.default [] := by
    unfold Holds; decide
  ⟨hwf, hys, by decide,
   (PushBack_append_law (failAt 100) [1, 2, 3] [] Vector.default vecPushed emptyMem memPushed
      hwf hys (by decide)).2.2.2.2 rfl⟩

theorem SIZE_MOD_val : SIZE_MOD = 18446744073709551616 := by
  unfold SIZE_MOD; norm_num

/-! ## The loops of `Resize` run to their end -/

theorem PopBack_ok_size {v v' : Vector} {m m' : Mem T W} (h : PopBack v m = Res.ok (v', m')) :
    v'.size_ = (v.size_ + SIZE_MOD - 1) % SIZE_MOD := by
  unfold PopBack at h
  simp only at h
  cases hd : destroyAt v.data_ ((v.size_ + SIZE_MOD - 1) % SIZE_MOD) m with
  | none => simp [hd] at h
  | some m1 =>
    simp only [hd, Res.ok.injEq, Prod.mk.injEq] at h
    rw [← h.1]

theorem PushBackWith_ok_size {E : ElemOps T W} {ctor : T → W → Bool × W} {x : T}
    {v v' : Vector} {m m' : Mem T W} (h : PushBackWith E ctor x v m = Res.ok (v', m')) :
    v'.size_ = (v.size_ + 1) % SIZE_MOD := by
  rcases PushBackWith_ok_inv h with ⟨-, -, hv⟩ | ⟨-, p, m1, m2, m3, m4, -, -, -, -, -, hv⟩
  · rw [hv]
  · rw [hv]

/-- The bound passed to the shrinking loop of `Resize` is never the reason it stops:
when it returns, `Size() > count` is false. -/
theorem shrinkLoop_exhausts (count : Nat) (fuel : Nat) :
    ∀ (v v' : Vector) (m m' : Mem T W), v.size_ - count ≤ fuel → v.size_ < SIZE_MOD →
    shrinkLoop count fuel v m = Res.ok (v', m') → ¬ (Size v' > count) := by
  induction fuel with
  | zero =>
    intro v v' m m' hf _ h
    simp only [shrinkLoop, Res.ok.injEq, Prod.mk.injEq] at h
    rw [← h.1]
    unfold Size
    omega
  | succ fuel ih =>
    intro v v' m m' hf hlt h
    unfold shrinkLoop at h
    split at h
    · rename_i hgt
      unfold Size at hgt
      cases hp : PopBack v m with
      | ub => simp [hp] at h
      | threw st => simp [hp] at h
      | ok st =>
        obtain ⟨v1, m1⟩ := st
        simp only [hp] at h
        have hs := PopBack_ok_size hp
        rw [SIZE_MOD_val] at hs hlt
        refine ih v1 v' m1 m' (by omega) (by rw [SIZE_MOD_val]; omega) h
    · rename_i hgt
      simp only [Res.ok.injEq, Prod.mk.injEq] at h
      rw [← h.1]
      exact hgt

/-- The bound passed to the growing loop of `Resize` is never the reason it stops:
when it returns, `Size() < count` is false. -/
theorem growLoop_exhausts (E : ElemOps T W) (count : Nat) (value : T) (fuel : Nat) :
    ∀ (v v' : Vector) (m m' : Mem T W), count - v.size_ ≤ fuel → count < SIZE_MOD →
    growLoop E count value fuel v m = Res.ok (v', m') → ¬ (Size v' < count) := by
  induction fuel with
  | zero =>
    intro v v' m m' hf _ h
    simp only [growLoop, Res.ok.injEq, Prod.mk.injEq] at h
    rw [← h.1]
    unfold Size
    omega
  | succ fuel ih =>
    intro v v' m m' hf hlt h
    unfold growLoop at h
    split at h
    · rename_i hgt
      unfold Size at hgt
      cases hp : PushBack E value v m with
      | ub => simp [hp] at h
      | threw st => simp [hp] at h
      | ok st =>
        obtain ⟨v1, m1⟩ := st
        simp only [hp] at h
        have hs := PushBackWith_ok_size hp
        rw [SIZE_MOD_val] at hs hlt
        refine ih v1 v' m1 m' (by omega) (by rw [SIZE_MOD_val]; omega) h
    · rename_i hgt
      simp only [Res.ok.injEq, Prod.mk.injEq] at h
      rw [← h.1]
      exact hgt

/-! ## C3: `size_ <= cap_` after every call -/

/-- Reads through a pointer are not disturbed by changes confined to other blocks. -/
theorem readSlot_frame {m m' : Mem T W} {changed ptr : Option Nat}
    (hfr : ∀ p, changed ≠ some p → m'.heap[p]? = m.heap[p]?)
    (hne : ∀ q, ptr = some q → changed ≠ some q) (i : Nat) :
    readSlot m' ptr i = readSlot m ptr i := by
  cases ptr with
  | none => rfl
  | some q =>
    unfold readSlot
    simp only [hfr q (hne q rfl)]

theorem Holds_of_read_eq {m m' : Mem T W} {v : Vector} {ys : List T}
    (h : ∀ i, readSlot m' v.data_ i = readSlot m v.data_ i) (hys : Holds m v ys) :
    Holds m' v ys :=
  ⟨hys.1, fun i hi => by
    have := hys.2 i hi
    unfold subscript at this ⊢
    rw [h i]
    exact this⟩

/-- On a container that holds `zs`, `Clear` returns, sets `size_` to 0 and touches no
block but the container's. -/
theorem Clear_ok {v : Vector} {m : Mem T W} {zs : List T} (hzs : Holds m v zs) :
    ∃ m1, Clear v m = Res.ok ({ v with size_ := 0 }, m1) ∧
      m1.heap.length = m.heap.length ∧
      ∀ p, v.data_ ≠ some p → m1.heap[p]? = m.heap[p]? := by
  have hex : ∃ m1, Destroy v.data_ v.size_ m = some m1 := by
    rcases Nat.eq_zero_or_pos v.size_ with h0 | hpos
    · exact ⟨m, by rw [h0]; rfl⟩
    · obtain ⟨q, s, hq, hs, hle⟩ := Holds_data hzs hpos
      obtain ⟨m1, s', d1, -⟩ := DestroyFrom_ok v.size_ 0 m s hs
        (fun j _ hj => Holds_live hzs hq hs j (by omega))
      exact ⟨m1, by rw [hq]; exact d1⟩
  obtain ⟨m1, hd⟩ := hex
  obtain ⟨f1, -, f3⟩ := DestroyFrom_frame v.size_ 0 m m1 hd
  exact ⟨m1, by simp only [Clear, hd], f1, f3⟩

/-- C8 as stated fails: a destination of capacity 1 move-assigned from a source leaves
the source with `size_ == 0` but `cap_ == 1`. -/
theorem assignMove_source_capacity_counterexample :
    ¬ (∀ s', assignMove 0 1 moveStart = Res.ok s' →
        ∀ src, s'.objs[1]? = some src → Size src = 0 ∧ Capacity src = 0) := by
  intro h
  have h1 := h moveEnd (by decide) { data_ := some 0, size_ := 0, cap_ := 1 } (by decide)
  exact absurd h1.2 (by decide)

/-- C8, amended. Move assignment `d = move(src)` between two distinct containers that
share no storage: the call returns, `d` takes over exactly the data members of `src`
(its storage, `size_` and `cap_`) and so holds what `src` held, and `src` is left with
`size_ == 0` and with the prior storage and `cap_` of `d` (so its capacity is 0 only
when that of `d` was). Self move-assignment returns the state unchanged. -/
theorem assignMove_transfer (s : State T W) (this : Nat) (d : Vector)
    (hd : s.objs[this]? = some d) :
    assignMove this this s = Res.ok s ∧
    ∀ (oth : Nat) (src : Vector) (ys zs : List T), this ≠ oth →
      s.objs[oth]? = some src → Holds s.mem src ys → Holds s.mem d zs → NoShare d src →
      ∃ s', assignMove this oth s = Res.ok s' ∧
        s'.objs[this]? = some src ∧ Holds s'.mem src ys ∧
        s'.objs[oth]? = some { data_ := d.data_, size_ := 0, cap_ := d.cap_ } := by
  refine ⟨by simp [assignMove, hd], ?_⟩
  intro oth src ys zs hne hs hys hzs hsh
  obtain ⟨m1, hc, -, hfr⟩ := Clear_ok hzs
  have hlt : this < s.objs.length := lt_of_getElem? hd
  have hlo : oth < s.objs.length := lt_of_getElem? hs
  refine ⟨⟨((s.objs.set this ⟨d.data_, 0, d.cap_⟩).set this src).set oth ⟨d.data_, 0, d.cap_⟩,
    m1⟩, ?_, ?_, ?_, ?_⟩
  · simp only [assignMove, hd, hs, method, hc, Swap]
    rw [if_pos hne, List.getElem?_set_self hlt, List.getElem?_set_ne hne, hs]
    simp only [if_pos hne]
  · simp only
    rw [List.getElem?_set_ne (Ne.symm hne), List.getElem?_set_self (by simpa using hlt)]
  · refine Holds_of_read_eq (fun i => ?_) hys
    exact readSlot_frame hfr (fun q hq hdq => hsh q hdq hq) i
  · simp only
    rw [List.getElem?_set_self (by simpa using hlo)]

/-- C8 amended, at work: the containers of the counterexample. -/
theorem assignMove_transfer_witness :
    moveStart.objs[0]? = some (vecOf [9] 0) ∧
    ∃ s', assignMove 0 1 moveStart = Res.ok s' ∧
      s'.objs[0]? = some { data_ := some 1, size_ := 2, cap_ := 2 } ∧
      Holds s'.mem { data_ := some 1, size_ := 2, cap_ := 2 } [1, 2] ∧
      s'.objs[1]? = some { data_ := (vecOf [9] 0).data_, size_ := 0, cap_ := (vecOf [9] 0).cap_ } :=
  ⟨by decide,
   (assignMove_transfer moveStart 0 (vecOf [9] 0) (by decide)).2 1
      { data_ := some 1, size_ := 2, cap_ := 2 } [1, 2] [9] (by decide) (by decide)
      (by unfold Holds; decide) (by unfold Holds; decide)
      (by intro q hq; cases hq; decide)⟩

/-! ## C9: copy assignment that fails -/

/-- When `Reserve` throws, the data members are unchanged and the heap is the old one,
possibly followed by a freed block. -/
theorem Reserve_threw_inv {E : ElemOps T W} {n : Nat} {v v' : Vector} {m m' : Mem T W}
    (h : Reserve E n v m = Res.threw (v', m')) :
    v' = v ∧ v.cap_ < n ∧ (m'.heap = m.heap ∨ m'.heap = m.heap ++ [none]) := by
  unfold Reserve at h
  split at h
  · cases h
  · rename_i hn
    cases ha : allocBlock E n m with
    | mk o m1 =>
      rw [ha] at h
      cases o with
      | none =>
        simp only [Res.threw.injEq, Prod.mk.injEq] at h
        obtain ⟨hv, hm⟩ := h
        subst hm
        exact ⟨hv.symm, by omega, Or.inl (allocBlock_none ha).1⟩
      | some p =>
        obtain ⟨hp, s, h1, -, -⟩ := allocBlock_some ha
        have hs1 : m1.heap[p]? = some (some s) := by
          rw [h1, hp]; simp
        simp only at h
        cases hc : copyLoop E v.data_ (some p) v.size_ 0 m1 with
        | ub => simp [hc] at h
        | raised r m2 =>
          obtain ⟨s2, e1, e2, -, -, e5, -, e7⟩ := copyLoop_raised v.size_ 0 m1 s r m2 hs1 hc
          rw [h1] at e1
          obtain ⟨m'', c1, c2⟩ := Reserve_catch_top (v := v) hp e1
            (fun j hj => e7 j (Nat.zero_le _) hj)
          simp only [hc, c1, Res.threw.injEq, Prod.mk.injEq] at h
          obtain ⟨hv, hm⟩ := h
          subst hm
          exact ⟨hv.symm, by omega, Or.inr c2⟩
        | done m2 =>
          simp only [hc] at h
          cases hd : Destroy v.data_ v.size_ m2 with
          | none => simp [hd] at h
          | some m3 =>
            cases hf : freeBlock v.data_ m3 with
            | none => simp [hd, hf] at h
            | some m4 => simp [hd, hf] at h

/-- When `PushBack` throws, the data members are unchanged and the heap is the old one,
possibly followed by a freed block. -/
theorem PushBackWith_threw_inv {E : ElemOps T W} {ctor : T → W → Bool × W} {x : T}
    {v v' : Vector} {m m' : Mem T W} (h : PushBackWith E ctor x v m = Res.threw (v', m')) :
    v' = v ∧ (m'.heap = m.heap ∨ m'.heap = m.heap ++ [none]) := by
  have h0 := h
  unfold PushBackWith at h
  split at h
  · cases hn : placementNew ctor v.data_ v.size_ x m with
    | ub => simp [hn] at h
    | ok m1 => simp [hn] at h
    | threw m1 =>
      simp only [hn, Res.threw.injEq, Prod.mk.injEq] at h
      obtain ⟨hv, hm⟩ := h
      subst hm
      exact ⟨hv.symm, Or.inl (placementNew_threw_ptr hn).1⟩
  · simp only at h
    cases ha : allocBlock E (if v.cap_ = 0 then 1 else (v.cap_ * 2) % SIZE_MOD) m with
    | mk o m1 =>
      rw [ha] at h
      cases o with
      | none =>
        simp only [Res.threw.injEq, Prod.mk.injEq] at h
        obtain ⟨hv, hm⟩ := h
        subst hm
        exact ⟨hv.symm, Or.inl (allocBlock_none ha).1⟩
      | some p =>
        obtain ⟨hp, s, h1, -, -⟩ := allocBlock_some ha
        have hs1 : m1.heap[p]? = some (some s) := by
          rw [h1, hp]; simp
        simp only at h
        cases hc : copyLoop E v.data_ (some p) v.size_ 0 m1 with
        | ub => simp [hc] at h
        | raised r m2 =>
          obtain ⟨s2, e1, e2, -, e4, e5, -, e7⟩ := copyLoop_raised v.size_ 0 m1 s r m2 hs1 hc
          rw [h1] at e1
          obtain ⟨m'', c1, c2⟩ := PushBack_catch_top (v := v) hp e1
            (fun j hj => e7 j (Nat.zero_le _) hj) (by omega)
          simp only [hc, c1, Res.threw.injEq, Prod.mk.injEq] at h
          obtain ⟨hv, hm⟩ := h
          subst hm
          exact ⟨hv.symm, Or.inr c2⟩
        | done m2 =>
          simp only [hc] at h
          obtain ⟨s2, e1, e2, -⟩ := copyLoop_done_shape v.size_ 0 m1 s m2 hs1 hc
          cases hn : placementNew ctor (some p) v.size_ x m2 with
          | ub => simp [hn] at h
          | threw m3 =>
            rename_i hfull
            rw [PushBackWith_value_throw hfull ha hc hn] at h0
            cases h0
          | ok m3 =>
            simp only [hn] at h
            cases hd : Destroy v.data_ v.size_ m3 with
            | none => simp [hd] at h
            | some m4 =>
              cases hf : freeBlock v.data_ m4 with
              | none => simp [hd, hf] at h
              | some m5 => simp [hd, hf] at h

/-- What survives a throw of `Reserve` or `PushBack`: every read. -/
theorem readSlot_after_throw {m m' : Mem T W}
    (h : m'.heap = m.heap ∨ m'.heap = m.heap ++ [none]) (ptr : Option Nat) (i : Nat) :
    readSlot m' ptr i = readSlot m ptr i := by
  rcases h with h | h
  · exact readSlot_heap h ptr i
  · exact readSlot_append_none m m' h ptr i

/-- A returning `PushBack` touches no old block but the container's own. -/
theorem PushBackWith_ok_frame {E : ElemOps T W} {ctor : T → W → Bool × W} {x : T}
    {v v' : Vector} {m m' : Mem T W} (h : PushBackWith E ctor x v m = Res.ok (v', m')) :
    m.heap.length ≤ m'.heap.length ∧
    (v'.data_ = v.data_ ∨ v'.data_ = some m.heap.length) ∧
    ∀ q, v.data_ ≠ some q → q < m.heap.length → m'.heap[q]? = m.heap[q]? := by
  rcases PushBackWith_ok_inv h with ⟨hlt, hn, hv⟩ |
    ⟨hlt, p, m1, m2, m3, m4, ha, hc, hn, hd, hf, hv⟩
  · obtain ⟨q0, s, hq, hs, hi, hh⟩ := placementNew_ok_ptr hn
    subst hv
    refine ⟨by rw [hh, List.length_set], Or.inl rfl, ?_⟩
    intro q hq' _
    rw [hh, List.getElem?_set_ne]
    intro e
    exact hq' (by rw [hq, e])
  · obtain ⟨hp, s, h1, -, -⟩ := allocBlock_some ha
    have hs1 : m1.heap[p]? = some (some s) := by
      rw [h1, hp]; simp
    obtain ⟨s2, e1, e2, -⟩ := copyLoop_done_shape v.size_ 0 m1 s m2 hs1 hc
    obtain ⟨s2', t1, t2, t3⟩ := placementNew_ok hn
    obtain ⟨f1, f2⟩ := release_frame hd hf
    subst hv
    refine ⟨by rw [f1, t3, List.length_set, e1, List.length_set, h1]; simp,
      Or.inr (by rw [hp]), ?_⟩
    intro q hq hql
    rw [f2 q hq, t3, List.getElem?_set_ne (by omega), e1, List.getElem?_set_ne (by omega), h1,
      List.getElem?_append_left hql]

/-- A returning `Reserve` on a well-formed container keeps it well-formed and touches
no old block but the container's own. -/
theorem Reserve_ok_frame {E : ElemOps T W} {n : Nat} {v v' : Vector} {m m' : Mem T W}
    (hwf : WF m v) (hn : n < SIZE_MOD) (h : Reserve E n v m = Res.ok (v', m')) :
    WF m' v' ∧ v'.size_ = v.size_ ∧ m.heap.length ≤ m'.heap.length ∧
    (v'.data_ = v.data_ ∨ v'.data_ = some m.heap.length) ∧
    ∀ q, v.data_ ≠ some q → q < m.heap.length → m'.heap[q]? = m.heap[q]? := by
  rcases Reserve_ok_inv h with ⟨hle, hv, hm⟩ | ⟨hlt, p, m1, m2, m3, ha, hc, hd, hf, hv⟩
  · subst hv hm
    exact ⟨hwf, rfl, Nat.le_refl _, Or.inl rfl, fun _ _ _ => rfl⟩
  · obtain ⟨hp, s, h1, -, -⟩ := allocBlock_some ha
    have hs1 : m1.heap[p]? = some (some s) := by
      rw [h1, hp]; simp
    obtain ⟨s2, e1, e2, -⟩ := copyLoop_done_shape v.size_ 0 m1 s m2 hs1 hc
    obtain ⟨f1, f2⟩ := release_frame hd hf
    have hlen : m'.heap.length = m.heap.length + 1 := by
      rw [f1, e1, List.length_set, h1]; simp
    subst hv
    refine ⟨⟨by simp only; have := hwf.1; omega, hn, ?_⟩, rfl, by omega, Or.inr (by rw [hp]), ?_⟩
    · intro q hq
      simp only [Option.some.injEq] at hq
      omega
    · intro q hq hql
      rw [f2 q hq, e1, List.getElem?_set_ne (by omega), h1, List.getElem?_append_left hql]

theorem Clear_ok_inv {v v' : Vector} {m m' : Mem T W} (h : Clear v m = Res.ok (v', m')) :
    v' = { v with size_ := 0 } ∧ m'.heap.length = m.heap.length ∧
    ∀ p, v.data_ ≠ some p → m'.heap[p]? = m.heap[p]? := by
  unfold Clear at h
  cases hd : Destroy v.data_ v.size_ m with
  | none => simp [hd] at h
  | some m1 =>
    simp only [hd, Res.ok.injEq, Prod.mk.injEq] at h
    obtain ⟨hv, hm⟩ := h
    subst hm
    obtain ⟨f1, -, f3⟩ := DestroyFrom_frame v.size_ 0 m m1 hd
    exact ⟨hv.symm, f1, f3⟩

theorem Clear_not_threw {v : Vector} {m : Mem T W} {st : Vector × Mem T W} :
    Clear v m ≠ Res.threw st := by
  unfold Clear
  cases hd : Destroy v.data_ v.size_ m with
  | none => simp
  | some m1 => simp

theorem readSlot_of_block_eq {m m' : Mem T W} {ptr : Option Nat}
    (h : ∀ q, ptr = some q → m'.heap[q]? = m.heap[q]?) (i : Nat) :
    readSlot m' ptr i = readSlot m ptr i := by
  cases ptr with
  | none => rfl
  | some q =>
    unfold readSlot
    simp only [h q rfl]

/-- The copying loop of the copy assignment run for `k + n` iterations is the loop run
for `k` iterations followed, when these return, by the loop run for the `n` others. -/
theorem pushFrom_split {E : ElemOps T W} {b : Vector} (n k : Nat) :
    ∀ (i : Nat) (v : Vector) (m : Mem T W),
    pushFrom E b (k + n) i v m =
      match pushFrom E b k i v m with
      | Res.ok (v1, m1) => pushFrom E b n (i + k) v1 m1
      | r => r := by
  induction k with
  | zero =>
    intro i v m
    simp [pushFrom]
  | succ k ih =>
    intro i v m
    rw [show k + 1 + n = (k + n) + 1 by omega]
    simp only [pushFrom]
    cases hx : subscript b m i with
    | none => rfl
    | some x =>
      simp only
      cases hp : PushBack E x v m with
      | ub => rfl
      | threw st => rfl
      | ok st =>
        obtain ⟨v1, m1⟩ := st
        simp only
        rw [ih (i + 1) v1 m1, show i + 1 + k = i + (k + 1) by omega]

/-- The first `k` iterations of the copying loop of the copy assignment, when they
return: the destination holds the first `i + k` elements of the source, and the source
is untouched. -/
theorem pushFrom_prefix {E : ElemOps T W} {b : Vector} {ys : List T} (k : Nat) :
    ∀ (i : Nat) (a a' : Vector) (m m' : Mem T W),
    WF m a → (∀ q, b.data_ = some q → q < m.heap.length) →
    Holds m a (ys.take i) → Holds m b ys → NoShare a b → i + k ≤ b.size_ → a.size_ = i →
    pushFrom E b k i a m = Res.ok (a', m') →
    a'.size_ = i + k ∧ Holds m' a' (ys.take (i + k)) ∧ WF m' a' ∧ Holds m' b ys := by
  induction k with
  | zero =>
    intro i a a' m m' hwa _ hya hyb _ hik hai h
    simp only [pushFrom, Res.ok.injEq, Prod.mk.injEq] at h
    obtain ⟨e1, e2⟩ := h
    subst e1 e2
    exact ⟨by omega, hya, hwa, hyb⟩
  | succ k ih =>
    intro i a a' m m' hwa hbp hya hyb hsh hik hai h
    have hib : i < b.size_ := by omega
    have hiy : i < ys.length := by rw [hyb.1]; exact hib
    have hx : subscript b m i = some ys[i] := by
      rw [hyb.2 i hib, List.getElem?_eq_getElem]
    cases hp : PushBack E ys[i] a m with
    | ub => simp [pushFrom, hx, hp] at h
    | threw st => simp [pushFrom, hx, hp] at h
    | ok st =>
      obtain ⟨a1, m1⟩ := st
      simp only [pushFrom, hx, hp] at h
      obtain ⟨w1, y1, z1⟩ := PushBackWith_ok_spec hwa hya hp
      obtain ⟨f1, f2, f3⟩ := PushBackWith_ok_frame hp
      have hyb1 : Holds m1 b ys := by
        refine Holds_of_read_eq (fun j => readSlot_of_block_eq (fun q hq => ?_) j) hyb
        exact f3 q (fun e => hsh q e hq) (hbp q hq)
      have htake : ys.take i ++ [ys[i]] = ys.take (i + 1) := by
        rw [List.take_succ, List.getElem?_eq_getElem hiy]
        rfl
      rw [htake] at y1
      have hrec := ih (i + 1) a1 a' m1 m' w1 (fun q hq => by have := hbp q hq; omega) y1 hyb1
        (by
          intro q hq hbq
          rcases f2 with g | g
          · rw [g] at hq
            exact hsh q hq hbq
          · rw [g] at hq
            simp only [Option.some.injEq] at hq
            have := hbp q hbq
            omega)
        (by omega) (by omega) h
      rw [show i + 1 + k = i + (k + 1) by omega] at hrec
      exact hrec

/-- C9 as stated fails: copy-assigning `[1, 2]` to a container when the second copy
throws leaves the destination with one element, not empty. -/
theorem assignCopy_not_empty_counterexample :
    ¬ (∀ s', assignCopy (failAt 1) 1 0 copyStart = Res.threw s' →
        ∀ a, s'.objs[1]? = some a → Size a = 0) := by
  intro h
  have h1 := h copyEnd (by decide) { data_ := some 2, size_ := 1, cap_ := 2 } (by decide)
  exact absurd h1 (by decide)

/-- C9, amended. Copy assignment `a = b` between two distinct well-formed containers
that share no storage, `b` holding `ys`, failing at position `k < Size b`: when
`Clear()` and `Reserve(oth.Size())` return, the first `k` copies return and the copy
of element `k` of `b` throws, then the assignment throws, and the destination is left
with exactly `k` elements, the first `k` elements of `b`; it is empty exactly when
`k == 0`. The source object is unchanged and still holds `ys`. -/
theorem assignCopy_failure (E : ElemOps T W) (s : State T W) (this oth : Nat)
    (a a1 a2 a3 a4 b : Vector) (m1 m2 m3 m4 : Mem T W) (ys : List T) (k : Nat) (x : T)
    (hne : this ≠ oth) (ha : s.objs[this]? = some a) (hb : s.objs[oth]? = some b)
    (hwa : WF s.mem a) (hwb : WF s.mem b) (hys : Holds s.mem b ys) (hsh : NoShare a b)
    (hk : k < Size b) (hx : ys[k]? = some x)
    (hclear : Clear a s.mem = Res.ok (a1, m1))
    (hres : Reserve E (Size b) a1 m1 = Res.ok (a2, m2))
    (hcopies : pushFrom E b k 0 a2 m2 = Res.ok (a3, m3))
    (hthrow : PushBack E x a3 m3 = Res.threw (a4, m4)) :
    assignCopy E this oth s = Res.threw { objs := s.objs.set this a4, mem := m4 } ∧
    Size a4 = k ∧ Holds m4 a4 (ys.take k) ∧ (Size a4 = 0 ↔ k = 0) ∧
    (s.objs.set this a4)[oth]? = some b ∧ Holds m4 b ys := by
  unfold Size at hk ⊢
  obtain ⟨hv1, hl1, hfr1⟩ := Clear_ok_inv hclear
  have hwa1 : WF m1 a1 := by
    subst hv1
    exact ⟨Nat.zero_le _, hwa.2.1, fun q hq => by rw [hl1]; exact hwa.2.2 q hq⟩
  have hyb1 : Holds m1 b ys := by
    refine Holds_of_read_eq (fun j => readSlot_frame hfr1 (fun q hq e => ?_) j) hys
    exact hsh q e hq
  have hbn : Size b < SIZE_MOD := by
    have := hwb.1
    have := hwb.2.1
    unfold Size
    omega
  have hsh1 : NoShare a1 b := by
    subst hv1
    exact hsh
  obtain ⟨w2, z2, l2, d2, fr2⟩ := Reserve_ok_frame hwa1 hbn hres
  have hbp1 : ∀ q, b.data_ = some q → q < m1.heap.length := by
    intro q hq
    rw [hl1]
    exact hwb.2.2 q hq
  have ha2 : a2.size_ = 0 := by
    rw [z2, hv1]
  have hyb2 : Holds m2 b ys := by
    refine Holds_of_read_eq (fun j => readSlot_of_block_eq (fun q hq => ?_) j) hyb1
    exact fr2 q (fun e => hsh1 q e hq) (hbp1 q hq)
  have hsh2 : NoShare a2 b := by
    intro q hq hbq
    rcases d2 with g | g
    · rw [g] at hq
      exact hsh1 q hq hbq
    · rw [g] at hq
      simp only [Option.some.injEq] at hq
      have := hbp1 q hbq
      omega
  obtain ⟨z3, y3, -, hyb3⟩ := pushFrom_prefix k 0 a2 a3 m2 m3 w2
    (fun q hq => by have := hbp1 q hq; omega)
    ⟨by simp [ha2], fun i hi => by omega⟩ hyb2 hsh2 (by omega) ha2 hcopies
  rw [Nat.zero_add] at z3 y3
  obtain ⟨hv4, hheap⟩ := PushBackWith_threw_inv hthrow
  subst hv4
  have hsub : subscript b m3 k = some x := by
    rw [hyb3.2 k hk, hx]
  refine ⟨?_, z3, Holds_of_read_eq (fun j => readSlot_after_throw hheap _ j) y3,
    by rw [z3], by rw [List.getElem?_set_ne hne, hb],
    Holds_of_read_eq (fun j => readSlot_after_throw hheap _ j) hyb3⟩
  have hsplit : Size b = k + ((b.size_ - k - 1) + 1) := by
    unfold Size
    omega
  unfold assignCopy
  rw [hb]
  simp only [if_pos hne, method, ha, assignCopyBody, hclear, hres]
  rw [hsplit, pushFrom_split, hcopies]
  simp only [pushFrom, Nat.zero_add, hsub, hthrow]

/-- C9 amended, at work: the containers of the counterexample, the copy at position 1
throwing. -/
theorem assignCopy_failure_witness :
    WF copyStart.mem (vecOf [1, 2] 0) ∧ Holds copyStart.mem (vecOf [1, 2] 0) [1, 2] ∧
    PushBack (failAt 1) 2 ⟨some 2, 1, 2⟩ memAssign3 = Res.threw (⟨some 2, 1, 2⟩, copyEnd.mem) ∧
    assignCopy (failAt 1) 1 0 copyStart
      = Res.threw { objs := copyStart.objs.set 1 ⟨some 2, 1, 2⟩, mem := copyEnd.mem } ∧
    Size (⟨some 2, 1, 2⟩ : Vector) = 1 ∧
    Holds copyEnd.mem ⟨some 2, 1, 2⟩ ([1, 2].take 1) ∧
    (Size (⟨some 2, 1, 2⟩ : Vector) = 0 ↔ 1 = 0) ∧
    (copyStart.objs.set 1 ⟨some 2, 1, 2⟩)[0]? = some (vecOf [1, 2] 0) ∧
    Holds copyEnd.mem (vecOf [1, 2] 0) [1, 2] :=
  have hwb : WF copyStart.mem (vecOf [1, 2] 0) := by
    unfold WF; decide
  have hys : Holds copyStart.mem (vecOf [1, 2] 0) [1, 2] := by
    unfold Holds; decide
  have hthrow : PushBack (failAt 1) 2 ⟨some 2, 1, 2⟩ memAssign3
      = Res.threw (⟨some 2, 1, 2⟩, copyEnd.mem) := by
    decide
  ⟨hwb, hys, hthrow,
   assignCopy_failure (failAt 1) copyStart 1 0 { data_ := some 1, size_ := 1, cap_ := 1 }
     ⟨some 1, 0, 1⟩ ⟨some 2, 0, 2⟩ ⟨some 2, 1, 2⟩ ⟨some 2, 1, 2⟩ (vecOf [1, 2] 0)
     memAssign1 memAssign2 memAssign3 copyEnd.mem [1, 2] 1 2
     (by decide) (by decide) (by decide) (by unfold WF; decide) hwb hys
     (by intro q hq; cases hq; decide) (by decide) (by decide) (by decide) (by decide)
     (by decide) hthrow⟩

/-! ## C10: a throw inside the count/fill constructor -/

/-- C10 on the code: `Vector(2, 5)` with an element type whose second construction
throws. The constructor throws, and in the memory it leaves the block it allocated is
still live and still holds the element constructed first: the log has the allocation
and that construction, and neither a destructor call nor a deallocation. -/
theorem fromCount_throw_leaks :
    Vector.fromCount (failAt 1) 2 5 emptyMem
      = Res.threw ({ data_ := some 0, size_ := 1, cap_ := 2 },
          { heap := [some [some 5, none]], world := 2,
            log := [Event.alloc 0 8, Event.ctor 0 0] }) := by
  decide

/-! ## C11: what the `catch` block of `PushBack` destructs -/

/-- C11 on the code: `PushBack(4)`, by either overload, on the full container
`{7, 8, 9}` with an element type whose fourth construction throws. The three copies
into the new block (block 1) succeed and the construction of the new value in slot 3
throws, so that the `catch` block is entered with `r_ind == size_ == 3` and slot 3 raw
(no `ctor 1 3` in the log). The `catch` block destructs slots 0, 1, 2 and then, because
`r_ind == size_`, calls the destructor on slot 3 as well, which was never constructed:
that call is not defined, and with it the `catch` block and both overloads of
`PushBack` have undefined behaviour. -/
theorem PushBack_catch_destructs_unconstructed :
    copyLoop (failAt 3) (vecOf [7, 8, 9] 0).data_ (some 1) 3 0
        (allocBlock (failAt 3) 6 (memOf [7, 8, 9] 0)).2 = LoopRes.done memCopied ∧
    placementNew (failAt 3).copyCtor (some 1) 3 4 memCopied = Res.threw memCaught ∧
    placementNew (failAt 3).moveCtor (some 1) 3 4 memCopied = Res.threw memCaught ∧
    readSlot memCaught (some 1) 3 = none ∧ Event.ctor 1 3 ∉ memCaught.log ∧
    Destroy (some 1) 3 memCaught = some memUnwound ∧
    memUnwound.log = memCaught.log ++ [Event.dtor 1 0, Event.dtor 1 1, Event.dtor 1 2] ∧
    destroyAt (some 1) 3 memUnwound = none ∧
    PushBack_catch (some 1) 3 (vecOf [7, 8, 9] 0) memCaught = Res.ub ∧
    PushBack (failAt 3) 4 (vecOf [7, 8, 9] 0) (memOf [7, 8, 9] 0) = Res.ub ∧
    PushBackMove (failAt 3) 4 (vecOf [7, 8, 9] 0) (memOf [7, 8, 9] 0) = Res.ub := by
  decide

/-! ## C15: move construction -/

/-- C15. Move construction from the container `src` (object `oth`): the call returns,
the new object (the last one) has exactly the data members of `src`, that is its
storage, `size_` and `cap_`, the memory is untouched so that the new object reads the
elements `src` read, and `src` is left in the default state: `size_ == 0`,
`cap_ == 0`, `data_ == nullptr`. -/
theorem constructMove_transfer (s : State T W) (oth : Nat) (src : Vector)
    (hs : s.objs[oth]? = some src) :
    ∃ s', constructMove oth s = Res.ok s' ∧
      s'.objs[s.objs.length]? = some src ∧ s'.mem = s.mem ∧
      (∀ i, subscript src s'.mem i = subscript src s.mem i) ∧
      ∃ left, s'.objs[oth]? = some left ∧ Size left = 0 ∧ Capacity left = 0 ∧
        Data left = none := by
  have hlt : oth < s.objs.length := lt_of_getElem? hs
  have hne : s.objs.length ≠ oth := by omega
  refine ⟨⟨((s.objs ++ [Vector.default]).set s.objs.length src).set oth Vector.default, s.mem⟩,
    ?_, ?_, rfl, fun _ => rfl, Vector.default, ?_, rfl, rfl, rfl⟩
  · unfold constructMove Swap
    simp only [List.getElem?_concat_length, List.getElem?_append_left hlt, hs, if_pos hne]
  · simp only
    rw [List.getElem?_set_ne (Ne.symm hne), List.getElem?_set_self (by simp)]
  · simp only
    rw [List.getElem?_set_self (by simp; omega)]

/-- C15 at work: the container `{1, 2}` of `moveStart` moved into a new object. -/
theorem constructMove_transfer_witness :
    moveStart.objs[1]? = some { data_ := some 1, size_ := 2, cap_ := 2 } ∧
    ∃ s', constructMove 1 moveStart = Res.ok s' ∧
      s'.objs[moveStart.objs.length]? = some { data_ := some 1, size_ := 2, cap_ := 2 } ∧
      s'.mem = moveStart.mem ∧
      (∀ i, subscript { data_ := some 1, size_ := 2, cap_ := 2 } s'.mem i
        = subscript { data_ := some 1, size_ := 2, cap_ := 2 } moveStart.mem i) ∧
      ∃ left, s'.objs[1]? = some left ∧ Size left = 0 ∧ Capacity left = 0 ∧
        Data left = none :=
  ⟨by decide,
   constructMove_transfer moveStart 1 { data_ := some 1, size_ := 2, cap_ := 2 } (by decide)⟩

/-! ## C19: `Swap` -/

theorem set_set_restore {α : Type} (l : List α) (i j : Nat) (a b : α)
    (ha : l[i]? = some a) (hb : l[j]? = some b) :
    (((l.set i b).set j a).set i a).set j b = l := by
  apply List.ext_getElem?
  intro k
  by_cases hkj : j = k
  · subst hkj
    rw [List.getElem?_set_self (by simpa using lt_of_getElem? hb), hb]
  · rw [List.getElem?_set_ne hkj]
    by_cases hki : i = k
    · subst hki
      rw [List.getElem?_set_self (by simpa using lt_of_getElem? ha), ha]
    · rw [List.getElem?_set_ne hki, List.getElem?_set_ne hkj, List.getElem?_set_ne hki]

/-- C19. `a.Swap(b)` on the objects `this` and `oth`: the call returns, `this` has
exactly the prior data members of `oth` (storage, `size_`, `cap_`) and `oth` those of
`this`, the memory and every other object are untouched, so each reads the contents
the other had, and a second `Swap` restores the state. `a.Swap(a)` returns the state
unchanged. -/
theorem Swap_exchange (s : State T W) (this oth : Nat) (a b : Vector)
    (ha : s.objs[this]? = some a) (hb : s.objs[oth]? = some b) :
    (∃ s', Swap this oth s = Res.ok s' ∧
      s'.objs[this]? = some b ∧ s'.objs[oth]? = some a ∧ s'.mem = s.mem ∧
      (∀ k, k ≠ this → k ≠ oth → s'.objs[k]? = s.objs[k]?) ∧
      Swap this oth s' = Res.ok s) ∧
    Swap this this s = Res.ok s := by
  have hself : Swap this this s = Res.ok s := by
    simp [Swap, ha]
  refine ⟨?_, hself⟩
  have hlt : this < s.objs.length := lt_of_getElem? ha
  have hlo : oth < s.objs.length := lt_of_getElem? hb
  by_cases hne : this = oth
  · subst hne
    rw [ha] at hb
    simp only [Option.some.injEq] at hb
    subst hb
    exact ⟨s, hself, ha, ha, rfl, fun _ _ _ => rfl, hself⟩
  · have h1 : ((s.objs.set this b).set oth a)[this]? = some b := by
      rw [List.getElem?_set_ne (Ne.symm hne), List.getElem?_set_self hlt]
    have h2 : ((s.objs.set this b).set oth a)[oth]? = some a := by
      rw [List.getElem?_set_self (by simpa using hlo)]
    refine ⟨⟨(s.objs.set this b).set oth a, s.mem⟩, ?_, h1, h2, rfl, ?_, ?_⟩
    · simp only [Swap, ha, hb, if_pos hne]
    · intro k hk1 hk2
      simp only
      rw [List.getElem?_set_ne (Ne.symm hk2), List.getElem?_set_ne (Ne.symm hk1)]
    · simp only [Swap, h1, h2, if_pos hne]
      rw [set_set_restore s.objs this oth a b ha hb]

/-- C19 at work: the two containers of `moveStart`. -/
theorem Swap_exchange_witness :
    moveStart.objs[0]? = some (vecOf [9] 0) ∧
    (∃ s', Swap 0 1 moveStart = Res.ok s' ∧
      s'.objs[0]? = some { data_ := some 1, size_ := 2, cap_ := 2 } ∧
      s'.objs[1]? = some (vecOf [9] 0) ∧ s'.mem = moveStart.mem ∧
      (∀ k, k ≠ 0 → k ≠ 1 → s'.objs[k]? = moveStart.objs[k]?) ∧
      Swap 0 1 s' = Res.ok moveStart) ∧
    Swap 0 0 moveStart = Res.ok moveStart :=
  ⟨by decide,
   Swap_exchange moveStart 0 1 (vecOf [9] 0) { data_ := some 1, size_ := 2, cap_ := 2 }
     (by decide) (by decide)⟩

/-! ## Shrinking: `PopBack`, `Clear` and the shrinking loop of `Resize` -/

theorem layout_set {m m' : Mem T W} {p : Nat} {s s' : List (Option T)}
    (hs : m.heap[p]? = some (some s)) (hl : s'.length = s.length)
    (h : m'.heap = m.heap.set p (some s')) : layout m' = layout m := by
  unfold layout
  apply List.ext_getElem?
  intro k
  rw [h, List.getElem?_map, List.getElem?_map]
  by_cases hk : p = k
  · subst hk
    rw [List.getElem?_set_self (lt_of_getElem? hs), hs]
    simp [hl]
  · rw [List.getElem?_set_ne hk]

/-- `PopBack` on a non-empty well-formed container holding `ys`: it returns, only
`size_` changes (by one), the last element is gone and the others stay. -/
theorem PopBack_ok_spec {v : Vector} {m : Mem T W} {ys : List T} (hwf : WF m v)
    (hys : Holds m v ys) (hpos : 0 < v.size_) :
    ∃ m', PopBack v m = Res.ok (⟨v.data_, v.size_ - 1, v.cap_⟩, m') ∧
      Holds m' ⟨v.data_, v.size_ - 1, v.cap_⟩ (ys.take (v.size_ - 1)) ∧
      WF m' ⟨v.data_, v.size_ - 1, v.cap_⟩ ∧ layout m' = layout m := by
  obtain ⟨hsc, hcap, hptr⟩ := hwf
  obtain ⟨q, s, hq, hs, hle⟩ := Holds_data hys hpos
  have hsz : (v.size_ + SIZE_MOD - 1) % SIZE_MOD = v.size_ - 1 := by
    rw [SIZE_MOD_val] at *
    omega
  obtain ⟨x0, hx0⟩ := Holds_live hys hq hs (v.size_ - 1) (by omega)
  obtain ⟨m', d1, d2, -⟩ := destroyAt_ok hs hx0
  refine ⟨m', ?_, ⟨?_, ?_⟩, ⟨?_, hcap, ?_⟩, layout_set hs (by simp) d2⟩
  · unfold PopBack
    simp only [hsz, hq, d1]
  · simp only [List.length_take]
    have := hys.1
    omega
  · intro i hi
    simp only at hi
    unfold subscript
    simp only [hq]
    rw [readSlot_set_eq d2 (lt_of_getElem? hs), List.getElem?_set_ne (by omega),
      List.getElem?_take_of_lt hi, ← hys.2 i (by omega)]
    unfold subscript
    rw [hq, readSlot_eq_join hs]
  · simp only
    omega
  · intro q' hq'
    rw [d2, List.length_set]
    exact hptr q' hq'

/-- The shrinking loop of `Resize` on a well-formed container holding `ys`: it returns,
only `size_` changes, to `min(size_, count)`, and the elements below it stay. -/
theorem shrinkLoop_spec (count : Nat) (fuel : Nat) :
    ∀ (v : Vector) (m : Mem T W) (ys : List T), WF m v → Holds m v ys →
    v.size_ - count ≤ fuel →
    ∃ m', shrinkLoop count fuel v m = Res.ok (⟨v.data_, min v.size_ count, v.cap_⟩, m') ∧
      Holds m' ⟨v.data_, min v.size_ count, v.cap_⟩ (ys.take count) ∧
      WF m' ⟨v.data_, min v.size_ count, v.cap_⟩ ∧ layout m' = layout m := by
  induction fuel with
  | zero =>
    intro v m ys hwf hys hf
    have hmin : min v.size_ count = v.size_ := by omega
    rw [hmin]
    refine ⟨m, rfl, ?_, hwf, rfl⟩
    rw [List.take_of_length_le (by rw [hys.1]; omega)]
    exact hys
  | succ fuel ih =>
    intro v m ys hwf hys hf
    by_cases hgt : v.size_ > count
    · obtain ⟨m1, p1, p2, p3, p4⟩ := PopBack_ok_spec hwf hys (by omega)
      obtain ⟨m', q1, q2, q3, q4⟩ := ih ⟨v.data_, v.size_ - 1, v.cap_⟩ m1 _ p3 p2
        (by simp only; omega)
      have hmin : min (v.size_ - 1) count = min v.size_ count := by omega
      have htake : List.take count (List.take (v.size_ - 1) ys) = List.take count ys := by
        rw [List.take_take, min_eq_left (by omega)]
      dsimp only at q1 q2 q3
      rw [hmin] at q1 q2 q3
      rw [htake] at q2
      refine ⟨m', ?_, q2, q3, by rw [q4, p4]⟩
      unfold shrinkLoop
      rw [if_pos (by unfold Size; exact hgt), p1]
      exact q1
    · have hmin : min v.size_ count = v.size_ := by omega
      rw [hmin]
      refine ⟨m, ?_, ?_, hwf, rfl⟩
      · unfold shrinkLoop
        rw [if_neg (by unfold Size; exact hgt)]
      · rw [List.take_of_length_le (by rw [hys.1]; omega)]
        exact hys

/-- `Clear` on a well-formed container: it returns, only `size_` changes, and the
layout of the heap stays. -/
theorem Clear_ok_layout {v : Vector} {m : Mem T W} {ys : List T} (hwf : WF m v)
    (hys : Holds m v ys) :
    ∃ m', Clear v m = Res.ok (⟨v.data_, 0, v.cap_⟩, m') ∧
      WF m' ⟨v.data_, 0, v.cap_⟩ ∧ layout m' = layout m := by
  rcases Nat.eq_zero_or_pos v.size_ with h0 | hpos
  · refine ⟨m, ?_, ⟨Nat.zero_le _, hwf.2.1, hwf.2.2⟩, rfl⟩
    unfold Clear Destroy
    rw [h0]
    rfl
  · obtain ⟨q, s, hq, hs, hle⟩ := Holds_data hys hpos
    obtain ⟨m', s', d1, d2, d3, -⟩ := DestroyFrom_ok v.size_ 0 m s hs
      (fun j _ hj => Holds_live hys hq hs j (by omega))
    refine ⟨m', ?_, ⟨Nat.zero_le _, hwf.2.1, ?_⟩, layout_set hs d3 d2⟩
    · unfold Clear Destroy
      rw [hq, d1]
    · intro q' hq'
      rw [d2, List.length_set]
      exact hwf.2.2 q' hq'

/-! ## Growing: the growing loop of `Resize` -/

/-- A returning `Reserve` keeps the contents of a container holding `ys`. -/
theorem Reserve_ok_Holds {E : ElemOps T W} {n : Nat} {v v' : Vector} {m m' : Mem T W}
    {ys : List T} (hys : Holds m v ys) (h : Reserve E n v m = Res.ok (v', m')) :
    Holds m' v' ys := by
  rcases Reserve_ok_inv h with ⟨-, hv, hm⟩ | ⟨-, p, m1, m2, m3, ha, hc, hd, hf, hv⟩
  · rw [hv, hm]
    exact hys
  · subst hv
    refine ⟨hys.1, ?_⟩
    intro i hi
    simp only at hi
    obtain ⟨q, sq, hq, hsq, -⟩ := Holds_data hys (by omega)
    obtain ⟨hp, s, h1, -, -⟩ := allocBlock_some ha
    have hne : v.data_ ≠ some p := by
      rw [hq, hp]
      intro e
      simp only [Option.some.injEq] at e
      have := lt_of_getElem? hsq
      omega
    have hs1 : m1.heap[p]? = some (some s) := by
      rw [h1, hp]; simp
    obtain ⟨s2, e1, -, -, e4⟩ := copyLoop_done_content hne v.size_ 0 m1 s m2 hs1 hc
    obtain ⟨x, hx1, hx2⟩ := e4 i (by omega) (by omega)
    have hs' : m'.heap[p]? = some (some s2) := by
      rw [(release_frame hd hf).2 p hne, e1, List.getElem?_set_self (lt_of_getElem? hs1)]
    have h0 := hys.2 i hi
    unfold subscript at h0 ⊢
    simp only
    rw [readSlot_of_block hs' hx2, ← h0]
    cases hr : readSlot m v.data_ i with
    | none =>
      rw [hr] at h0
      rw [List.getElem?_eq_getElem (by rw [hys.1]; exact hi)] at h0
      cases h0
    | some y =>
      have := readSlot_append h1 hr
      rw [hx1] at this
      rw [Option.some.inj this]

theorem growLoop_stop {E : ElemOps T W} {count : Nat} {x : T} (fuel : Nat) {v : Vector}
    {m : Mem T W} (h : ¬ Size v < count) : growLoop E count x fuel v m = Res.ok (v, m) := by
  cases fuel with
  | zero => rfl
  | succ fuel =>
    unfold growLoop
    rw [if_neg h]

theorem growLoop_step {E : ElemOps T W} {count : Nat} {x : T} (fuel : Nat) {v : Vector}
    {m : Mem T W} (h : Size v < count) :
    growLoop E count x (fuel + 1) v m =
      match PushBack E x v m with
      | Res.ok (v1, m1) => growLoop E count x fuel v1 m1
      | r => r := by
  rw [growLoop, if_pos h]

/-- Running the growing loop for `a + b` iterations at most is running it for `a` and
then for `b`. -/
theorem growLoop_split {E : ElemOps T W} {count : Nat} {x : T} (a b : Nat) :
    ∀ (v : Vector) (m : Mem T W),
    growLoop E count x (a + b) v m =
      match growLoop E count x a v m with
      | Res.ok (v2, m2) => growLoop E count x b v2 m2
      | r => r := by
  induction a with
  | zero =>
    intro v m
    rw [Nat.zero_add]
    rfl
  | succ a ih =>
    intro v m
    rw [show a + 1 + b = (a + b) + 1 by omega]
    by_cases hlt : Size v < count
    · rw [growLoop_step (a + b) hlt, growLoop_step a hlt]
      cases hp : PushBack E x v m with
      | ub => rfl
      | threw st => rfl
      | ok st =>
        obtain ⟨v1, m1⟩ := st
        exact ih v1 m1
    · rw [growLoop_stop (a + b + 1) hlt, growLoop_stop (a + 1) hlt]
      exact (growLoop_stop b hlt).symm

/-- The growing loop of `Resize`, when it returns, on a well-formed container holding
`ys` whose capacity is at least `count`: it has appended `min(fuel, count - size_)`
copies of `x` in place. -/
theorem growLoop_ok_spec {E : ElemOps T W} {count : Nat} {x : T} (fuel : Nat) :
    ∀ (v v' : Vector) (m m' : Mem T W) (ys : List T), WF m v → Holds m v ys →
    v.size_ ≤ count → count ≤ v.cap_ →
    growLoop E count x fuel v m = Res.ok (v', m') →
    v'.size_ = v.size_ + min fuel (count - v.size_) ∧
    Holds m' v' (ys ++ List.replicate (min fuel (count - v.size_)) x) ∧
    WF m' v' ∧ v'.cap_ = v.cap_ ∧ v'.data_ = v.data_ := by
  induction fuel with
  | zero =>
    intro v v' m m' ys hwf hys _ _ h
    simp only [growLoop, Res.ok.injEq, Prod.mk.injEq] at h
    obtain ⟨hv, hm⟩ := h
    subst hv hm
    refine ⟨by simp, ?_, hwf, rfl, rfl⟩
    simpa using hys
  | succ fuel ih =>
    intro v v' m m' ys hwf hys hle hcap h
    by_cases hlt : v.size_ < count
    · unfold growLoop at h
      rw [if_pos (by unfold Size; exact hlt)] at h
      cases hp : PushBack E x v m with
      | ub => simp [hp] at h
      | threw st => simp [hp] at h
      | ok st =>
        obtain ⟨v1, m1⟩ := st
        simp only [hp] at h
        obtain ⟨w1, y1, z1⟩ := PushBackWith_ok_spec hwf hys hp
        have hfix : v1.cap_ = v.cap_ ∧ v1.data_ = v.data_ := by
          rcases PushBackWith_ok_inv hp with ⟨-, -, hv⟩ | ⟨hn, -⟩
          · rw [hv]
            exact ⟨rfl, rfl⟩
          · omega
        obtain ⟨i1, i2, i3, i4, i5⟩ := ih v1 v' m1 m' _ w1 y1 (by omega) (by omega) h
        have hmin : min (fuel + 1) (count - v.size_) = min fuel (count - v1.size_) + 1 := by
          omega
        rw [hmin]
        refine ⟨by omega, ?_, i3, by rw [i4, hfix.1], by rw [i5, hfix.2]⟩
        rw [List.replicate_succ, ← List.singleton_append (l := List.replicate _ x),
          ← List.append_assoc]
        exact i2
    · rw [growLoop_stop (fuel + 1) (by unfold Size; exact hlt)] at h
      simp only [Res.ok.injEq, Prod.mk.injEq] at h
      obtain ⟨hv, hm⟩ := h
      subst hv hm
      have hz : min (fuel + 1) (count - v.size_) = 0 := by omega
      rw [hz]
      refine ⟨by simp, ?_, hwf, rfl, rfl⟩
      simpa using hys

/-- What a returning `Resize` does to a well-formed container holding `ys`. -/
theorem Resize_ok_spec {E : ElemOps T W} {count : Nat} {x : T} {v v' : Vector}
    {m m' : Mem T W} {ys : List T} (hwf : WF m v) (hys : Holds m v ys)
    (hn : count < SIZE_MOD) (h : Resize E count x v m = Res.ok (v', m')) :
    v'.size_ = count ∧
    Holds m' v' (ys.take count ++ List.replicate (count - ys.length) x) ∧ WF m' v' ∧
    (count ≤ v.cap_ → v'.cap_ = v.cap_ ∧ v'.data_ = v.data_) ∧
    (v.cap_ < count → v'.cap_ = count) := by
  unfold Resize at h
  cases hr : (if Capacity v < count then Reserve E count v m else Res.ok (v, m)) with
  | ub => simp [hr] at h
  | threw st => simp [hr] at h
  | ok st =>
    obtain ⟨v1, m1⟩ := st
    simp only [hr] at h
    have h1 : WF m1 v1 ∧ Holds m1 v1 ys ∧ v1.size_ = v.size_ ∧ count ≤ v1.cap_ ∧
        (count ≤ v.cap_ → v1.cap_ = v.cap_ ∧ v1.data_ = v.data_) ∧
        (v.cap_ < count → v1.cap_ = count) := by
      unfold Capacity at hr
      by_cases hc : v.cap_ < count
      · rw [if_pos hc] at hr
        obtain ⟨w, z, -⟩ := Reserve_ok_frame hwf hn hr
        have hcap : v1.cap_ = count := by
          rcases Reserve_ok_inv hr with ⟨hle, -, -⟩ | ⟨-, p, a1, a2, a3, -, -, -, -, hv⟩
          · omega
          · rw [hv]
        exact ⟨w, Reserve_ok_Holds hys hr, z, by omega, fun _ => by omega, fun _ => hcap⟩
      · rw [if_neg hc] at hr
        simp only [Res.ok.injEq, Prod.mk.injEq] at hr
        obtain ⟨e1, e2⟩ := hr
        subst e1 e2
        exact ⟨hwf, hys, rfl, by omega, fun _ => ⟨rfl, rfl⟩, fun _ => by omega⟩
    obtain ⟨w1, y1, z1, c1, k1, k2⟩ := h1
    obtain ⟨m2, s1, s2, s3, -⟩ := shrinkLoop_spec count (v1.size_ - count) v1 m1 ys w1 y1
      (Nat.le_refl _)
    rw [s1] at h
    simp only at h
    obtain ⟨g1, g2, g3, g4, g5⟩ := growLoop_ok_spec (count - min v1.size_ count)
      ⟨v1.data_, min v1.size_ count, v1.cap_⟩ v' m2 m' _ s3 s2
      (by simp only; omega) (by simp only; omega) h
    simp only at g1 g2 g4 g5
    have hl := hys.1
    have hrep : min (count - min v1.size_ count) (count - min v1.size_ count)
        = count - ys.length := by omega
    rw [hrep] at g1 g2
    refine ⟨by omega, g2, g3, fun hc => ?_, fun hc => ?_⟩
    · obtain ⟨a, b⟩ := k1 hc
      exact ⟨by rw [g4, a], by rw [g5, b]⟩
    · rw [g4, k2 hc]

/-! ## C20: shrinking keeps the storage -/

/-- C20. On a well-formed container holding `ys`: `Clear` returns and sets `size_` to
0; `PopBack`, when the container is not empty, returns and sets `size_` to
`size_ - 1`; `Resize(n)` with `n < size_` returns and sets `size_` to `n`. Each of the
three leaves `data_` and `cap_` as they were and the layout of the heap too (the same
blocks are live, with the same number of slots: nothing is allocated or freed), and
the container then holds the first elements of `ys`, up to its new length. -/
theorem shrink_keeps_storage (E : ElemOps T W) (v : Vector) (m : Mem T W) (ys : List T)
    (hwf : WF m v) (hys : Holds m v ys) :
    (∃ m', Clear v m = Res.ok (⟨v.data_, 0, v.cap_⟩, m') ∧ layout m' = layout m) ∧
    (0 < Size v →
      ∃ m', PopBack v m = Res.ok (⟨v.data_, v.size_ - 1, v.cap_⟩, m') ∧
        layout m' = layout m ∧
        Holds m' ⟨v.data_, v.size_ - 1, v.cap_⟩ (ys.take (v.size_ - 1))) ∧
    (∀ n x, n < Size v →
      ∃ m', Resize E n x v m = Res.ok (⟨v.data_, n, v.cap_⟩, m') ∧
        layout m' = layout m ∧ Holds m' ⟨v.data_, n, v.cap_⟩ (ys.take n)) := by
  refine ⟨?_, ?_, ?_⟩
  · obtain ⟨m', c1, -, c3⟩ := Clear_ok_layout hwf hys
    exact ⟨m', c1, c3⟩
  · intro hpos
    obtain ⟨m', p1, p2, -, p4⟩ := PopBack_ok_spec hwf hys hpos
    exact ⟨m', p1, p4, p2⟩
  · intro n x hn
    unfold Size at hn
    obtain ⟨m', s1, s2, -, s4⟩ := shrinkLoop_spec n (v.size_ - n) v m ys hwf hys (Nat.le_refl _)
    have hmin : min v.size_ n = n := by omega
    rw [hmin] at s1 s2
    refine ⟨m', ?_, s4, s2⟩
    have hcap : ¬ Capacity v < n := by
      have := hwf.1
      unfold Capacity
      omega
    unfold Resize
    rw [if_neg hcap]
    simp only [s1]
    exact growLoop_stop _ (by unfold Size; simp)

/-- C20 at work: five copies of 10, cleared, popped, and resized to 3. -/
theorem shrink_keeps_storage_witness :
    WF (memOf [10, 10, 10, 10, 10] 0) (vecOf [10, 10, 10, 10, 10] 0) ∧
    Holds (memOf [10, 10, 10, 10, 10] 0) (vecOf [10, 10, 10, 10, 10] 0) [10, 10, 10, 10, 10] ∧
    ∃ m', Resize (failAt 100) 3 0 (vecOf [10, 10, 10, 10, 10] 0) (memOf [10, 10, 10, 10, 10] 0)
        = Res.ok (⟨some 0, 3, 5⟩, m') ∧
      layout m' = layout (memOf [10, 10, 10, 10, 10] 0) ∧
      Holds m' ⟨some 0, 3, 5⟩ [10, 10, 10] :=
  have hwf : WF (memOf [10, 10, 10, 10, 10] 0) (vecOf [10, 10, 10, 10, 10] 0) := by
    unfold WF; decide
  have hys : Holds (memOf [10, 10, 10, 10, 10] 0) (vecOf [10, 10, 10, 10, 10] 0)
      [10, 10, 10, 10, 10] := by
    unfold Holds; decide
  ⟨hwf, hys,
   (shrink_keeps_storage (failAt 100) (vecOf [10, 10, 10, 10, 10] 0)
      (memOf [10, 10, 10, 10, 10] 0) [10, 10, 10, 10, 10] hwf hys).2.2 3 0 (by decide)⟩

/-! ## C12: result of `Resize` -/

/-- C12. Result of `Resize(count, value)` on a well-formed container holding `ys`,
`count` being a `size_t`: when the call returns, `size_` is `count`, the container
holds the first `count` elements of `ys` followed by `count - |ys|` copies of `value`,
`cap_` is unchanged when `count <= cap_` and is at least `count` otherwise. -/
theorem Resize_result (E : ElemOps T W) (count : Nat) (value : T) (v v' : Vector)
    (m m' : Mem T W) (ys : List T) (hwf : WF m v) (hys : Holds m v ys)
    (hn : count < SIZE_MOD) (h : Resize E count value v m = Res.ok (v', m')) :
    Size v' = count ∧
    Holds m' v' (ys.take count ++ List.replicate (count - ys.length) value) ∧
    (count ≤ Capacity v → Capacity v' = Capacity v) ∧
    (Capacity v < count → count ≤ Capacity v') := by
  obtain ⟨r1, r2, -, r4, r5⟩ := Resize_ok_spec hwf hys hn h
  unfold Size Capacity
  refine ⟨r1, r2, fun hc => (r4 hc).1, fun hc => ?_⟩
  rw [r5 hc]

/-- C12 at work: the scenario of the spec, a container of three 10s resized to ten
elements with fill value 99. -/
theorem Resize_result_witness :
    WF (memOf [10, 10, 10] 2) (vecOf [10, 10, 10] 2) ∧
    Holds (memOf [10, 10, 10] 2) (vecOf [10, 10, 10] 2) [10, 10, 10] ∧
    Resize (failAt 100) 10 99 (vecOf [10, 10, 10] 2) (memOf [10, 10, 10] 2)
      = Res.ok (⟨some 1, 10, 10⟩, memResized) ∧
    Size (⟨some 1, 10, 10⟩ : Vector) = 10 ∧
    Holds memResized ⟨some 1, 10, 10⟩
      ([10, 10, 10].take 10 ++ List.replicate (10 - [10, 10, 10].length) 99) :=
  have hwf : WF (memOf [10, 10, 10] 2) (vecOf [10, 10, 10] 2) := by
    unfold WF; decide
  have hys : Holds (memOf [10, 10, 10] 2) (vecOf [10, 10, 10] 2) [10, 10, 10] := by
    unfold Holds; decide
  have h := Resize_result (failAt 100) 10 99 (vecOf [10, 10, 10] 2) ⟨some 1, 10, 10⟩
    (memOf [10, 10, 10] 2) memResized [10, 10, 10] hwf hys (by decide) (by decide)
  ⟨hwf, hys, by decide, h.1, h.2.1⟩

/-! ## C13: a growing `Resize` that fails -/

/-- The first step of `Resize`, the reservation, when it returns. -/
theorem Resize_reserve_step {E : ElemOps T W} {count : Nat} {v v1 : Vector}
    {m m1 : Mem T W} {ys : List T} (hwf : WF m v) (hys : Holds m v ys)
    (hn : count < SIZE_MOD)
    (hr : (if Capacity v < count then Reserve E count v m else Res.ok (v, m))
      = Res.ok (v1, m1)) :
    WF m1 v1 ∧ Holds m1 v1 ys ∧ v1.size_ = v.size_ ∧ count ≤ v1.cap_ := by
  unfold Capacity at hr
  by_cases hc : v.cap_ < count
  · rw [if_pos hc] at hr
    obtain ⟨w, z, -⟩ := Reserve_ok_frame hwf hn hr
    have hcap : v1.cap_ = count := by
      rcases Reserve_ok_inv hr with ⟨hle, -, -⟩ | ⟨-, p, a1, a2, a3, -, -, -, -, hv⟩
      · omega
      · rw [hv]
    exact ⟨w, Reserve_ok_Holds hys hr, z, by omega⟩
  · rw [if_neg hc] at hr
    simp only [Res.ok.injEq, Prod.mk.injEq] at hr
    obtain ⟨e1, e2⟩ := hr
    subst e1 e2
    exact ⟨hwf, hys, rfl, by omega⟩

/-- As long as `count` is not reached, the growing loop of `Resize` is a plain sequence
of appends. -/
theorem growLoop_eq_pushFill {E : ElemOps T W} (count : Nat) {x : T} (j : Nat) :
    ∀ (v v2 : Vector) (m m2 : Mem T W) (ys : List T), WF m v → Holds m v ys →
    v.size_ + j ≤ count → pushFill E x j v m = Res.ok (v2, m2) →
    growLoop E count x j v m = Res.ok (v2, m2) := by
  induction j with
  | zero =>
    intro v v2 m m2 ys _ _ _ h
    exact h
  | succ j ih =>
    intro v v2 m m2 ys hwf hys hle h
    rw [growLoop_step j (by unfold Size; omega)]
    cases hp : PushBack E x v m with
    | ub => simp [pushFill, hp] at h
    | threw st => simp [pushFill, hp] at h
    | ok st =>
      obtain ⟨v1, m1⟩ := st
      simp only [pushFill, hp] at h
      obtain ⟨w1, y1, z1⟩ := PushBackWith_ok_spec hwf hys hp
      exact ih v1 v2 m1 m2 _ w1 y1 (by omega) h

/-- C13. A growing `Resize(count, value)` is not rolled back. On a well-formed
container holding `ys`, with `count` a `size_t` and `j < count - size_`: when the
reservation step returns, the first `j` appends of `value` return and the next one,
the `(j+1)`-th, throws, then `Resize` throws and the container is left with
`size_ + j` elements: `ys` followed by `j` copies of `value`. -/
theorem Resize_grow_not_rolled_back (E : ElemOps T W) (count : Nat) (value : T)
    (v v1 v2 v3 : Vector) (m m1 m2 m3 : Mem T W) (ys : List T) (j : Nat)
    (hwf : WF m v) (hys : Holds m v ys) (hn : count < SIZE_MOD) (hj : j < count - Size v)
    (hres : (if Capacity v < count then Reserve E count v m else Res.ok (v, m))
      = Res.ok (v1, m1))
    (happ : pushFill E value j v1 m1 = Res.ok (v2, m2))
    (hthrow : PushBack E value v2 m2 = Res.threw (v3, m3)) :
    Resize E count value v m = Res.threw (v3, m3) ∧ Size v3 = Size v + j ∧
    Holds m3 v3 (ys ++ List.replicate j value) := by
  unfold Size at hj ⊢
  obtain ⟨w1, y1, z1, c1⟩ := Resize_reserve_step hwf hys hn hres
  have hg := growLoop_eq_pushFill count j v1 v2 m1 m2 ys w1 y1 (by omega) happ
  obtain ⟨g1, g2, g3, -, -⟩ := growLoop_ok_spec j v1 v2 m1 m2 ys w1 y1 (by omega) c1 hg
  have hmin : min j (count - v1.size_) = j := by omega
  rw [hmin] at g1 g2
  obtain ⟨hv3, hheap⟩ := PushBackWith_threw_inv hthrow
  subst hv3
  refine ⟨?_, by omega, Holds_of_read_eq (fun i => readSlot_after_throw hheap _ i) g2⟩
  unfold Resize
  rw [hres]
  have hfuel : v1.size_ - count = 0 := by omega
  have hsplit : count - v1.size_ = j + ((count - v1.size_ - j - 1) + 1) := by omega
  simp only [hfuel, shrinkLoop]
  rw [hsplit, growLoop_split, hg]
  simp only
  rw [growLoop_step _ (by unfold Size; omega), hthrow]

/-- C13 at work: `Resize(10, 99)` on a container of three 10s, the third append
throwing. -/
theorem Resize_grow_not_rolled_back_witness :
    WF (memOf [10, 10, 10] 2) (vecOf [10, 10, 10] 2) ∧
    Holds (memOf [10, 10, 10] 2) (vecOf [10, 10, 10] 2) [10, 10, 10] ∧
    Resize (failAt 5) 10 99 (vecOf [10, 10, 10] 2) (memOf [10, 10, 10] 2)
      = Res.threw (⟨some 1, 5, 10⟩, memResize3) ∧
    Size (⟨some 1, 5, 10⟩ : Vector) = Size (vecOf [10, 10, 10] 2) + 2 ∧
    Holds memResize3 ⟨some 1, 5, 10⟩ ([10, 10, 10] ++ List.replicate 2 99) :=
  have hwf : WF (memOf [10, 10, 10] 2) (vecOf [10, 10, 10] 2) := by
    unfold WF; decide
  have hys : Holds (memOf [10, 10, 10] 2) (vecOf [10, 10, 10] 2) [10, 10, 10] := by
    unfold Holds; decide
  ⟨hwf, hys,
   Resize_grow_not_rolled_back (failAt 5) 10 99 (vecOf [10, 10, 10] 2) ⟨some 1, 3, 10⟩
     ⟨some 1, 5, 10⟩ ⟨some 1, 5, 10⟩ (memOf [10, 10, 10] 2) memResize1 memResize2 memResize3
     [10, 10, 10] 2 hwf hys (by decide) (by decide) (by decide) (by decide) (by decide)⟩

/-! ## C17: construction round trip -/

theorem pushFill_eq_pushAll {E : ElemOps T W} {x : T} (k : Nat) :
    ∀ (v : Vector) (m : Mem T W), pushFill E x k v m = pushAll E (List.replicate k x) v m := by
  induction k with
  | zero => intro v m; rfl
  | succ k ih =>
    intro v m
    rw [List.replicate_succ, pushFill, pushAll]
    cases hp : PushBack E x v m with
    | ub => rfl
    | threw st => rfl
    | ok st =>
      obtain ⟨v1, m1⟩ := st
      exact ih v1 m1

theorem WF_default (m : Mem T W) : WF m Vector.default :=
  ⟨Nat.le_refl _, by unfold SIZE_MOD Vector.default; norm_num, fun q hq => by cases hq⟩

/-- A constructor body, `Reserve(n)` on the fresh object followed by appends of the
elements of `xs`: when it returns, the object holds `xs`. -/
theorem ctor_body_spec {E : ElemOps T W} {n : Nat} {xs : List T} {m m' : Mem T W}
    {v' : Vector} (hn : n < SIZE_MOD)
    (h : (match Reserve E n Vector.default m with
      | Res.ok (v1, m1) => pushAll E xs v1 m1
      | r => r) = Res.ok (v', m')) :
    WF m' v' ∧ Holds m' v' xs ∧ v'.size_ = xs.length := by
  cases hr : Reserve E n Vector.default m with
  | ub => simp [hr] at h
  | threw st => simp [hr] at h
  | ok st =>
    obtain ⟨v1, m1⟩ := st
    simp only [hr] at h
    obtain ⟨w1, z1, -⟩ := Reserve_ok_frame (WF_default m) hn hr
    have hz : v1.size_ = 0 := by rw [z1]; rfl
    have hy1 : Holds m1 v1 [] := ⟨by simp [hz], fun i hi => by omega⟩
    obtain ⟨w2, y2, z2⟩ := pushAll_ok_spec xs v1 v' m1 m' [] w1 hy1 h
    exact ⟨w2, by simpa using y2, by omega⟩

/-- C17. Construction round trip. When the initializer-list constructor returns for
the sequence `xs`, `Size()` is the length of `xs`, `operator[](i)` yields `xs[i]` for
every `i` below it, and `cap_` is at least that length. When the count/fill
constructor returns for `count` and `value`, `Size()` is `count`, every element is
`value`, and `cap_` is at least `count`. (The lengths are `size_t` values.) -/
theorem construction_round_trip (E : ElemOps T W) (m : Mem T W) :
    (∀ (xs : List T) (v' : Vector) (m' : Mem T W), xs.length < SIZE_MOD →
      Vector.fromInit E xs m = Res.ok (v', m') →
      Size v' = xs.length ∧ (∀ i, i < xs.length → subscript v' m' i = xs[i]?) ∧
      xs.length ≤ Capacity v') ∧
    (∀ (count : Nat) (value : T) (v' : Vector) (m' : Mem T W), count < SIZE_MOD →
      Vector.fromCount E count value m = Res.ok (v', m') →
      Size v' = count ∧ (∀ i, i < count → subscript v' m' i = some value) ∧
      count ≤ Capacity v') := by
  refine ⟨?_, ?_⟩
  · intro xs v' m' hn h
    obtain ⟨w, y, z⟩ := ctor_body_spec hn h
    unfold Size Capacity
    refine ⟨z, fun i hi => y.2 i (by omega), ?_⟩
    have := w.1
    omega
  · intro count value v' m' hn h
    unfold Vector.fromCount at h
    simp only [pushFill_eq_pushAll] at h
    obtain ⟨w, y, z⟩ := ctor_body_spec hn h
    rw [List.length_replicate] at z
    unfold Size Capacity
    refine ⟨z, fun i hi => ?_, ?_⟩
    · rw [y.2 i (by omega), List.getElem?_replicate]
      simp [hi]
    · have := w.1
      omega

/-- C17 at work: the two constructions of the tests, `{1, 2, 3, 4, 5}` and `(4, 10)`. -/
theorem construction_round_trip_witness :
    (Vector.fromInit (failAt 100) [1, 2, 3, 4, 5] emptyMem = Res.ok (⟨some 0, 5, 5⟩, memInit) ∧
      Size (⟨some 0, 5, 5⟩ : Vector) = 5 ∧
      (∀ i, i < 5 → subscript ⟨some 0, 5, 5⟩ memInit i = [1, 2, 3, 4, 5][i]?) ∧
      5 ≤ Capacity (⟨some 0, 5, 5⟩ : Vector)) ∧
    (Vector.fromCount (failAt 100) 4 10 emptyMem = Res.ok (⟨some 0, 4, 4⟩, memCount) ∧
      Size (⟨some 0, 4, 4⟩ : Vector) = 4 ∧
      (∀ i, i < 4 → subscript ⟨some 0, 4, 4⟩ memCount i = some 10) ∧
      4 ≤ Capacity (⟨some 0, 4, 4⟩ : Vector)) :=
  ⟨⟨by decide,
    (construction_round_trip (failAt 100) emptyMem).1 [1, 2, 3, 4, 5] ⟨some 0, 5, 5⟩ memInit
      (by decide) (by decide)⟩,
   ⟨by decide,
    (construction_round_trip (failAt 100) emptyMem).2 4 10 ⟨some 0, 4, 4⟩ memCount
      (by decide) (by decide)⟩⟩

/-! ## C14: copies -/

/-- The copying loop of the copy constructor and of the copy assignment, when it
returns: the destination holds what the source holds, and the source is untouched. -/
theorem pushFrom_ok {E : ElemOps T W} {b : Vector} {ys : List T} (k : Nat) :
    ∀ (i : Nat) (a a' : Vector) (m m' : Mem T W),
    WF m a → (∀ q, b.data_ = some q → q < m.heap.length) →
    Holds m a (ys.take i) → Holds m b ys → NoShare a b → i + k = b.size_ → a.size_ = i →
    pushFrom E b k i a m = Res.ok (a', m') →
    a'.size_ = b.size_ ∧ Holds m' a' ys ∧ WF m' a' ∧ Holds m' b ys := by
  induction k with
  | zero =>
    intro i a a' m m' hwa _ hya hyb _ hik hai h
    simp only [pushFrom, Res.ok.injEq, Prod.mk.injEq] at h
    obtain ⟨e1, e2⟩ := h
    subst e1 e2
    refine ⟨by omega, ?_, hwa, hyb⟩
    rw [List.take_of_length_le (by rw [hyb.1]; omega)] at hya
    exact hya
  | succ k ih =>
    intro i a a' m m' hwa hbp hya hyb hsh hik hai h
    have hib : i < b.size_ := by omega
    have hiy : i < ys.length := by rw [hyb.1]; exact hib
    have hx : subscript b m i = some ys[i] := by
      rw [hyb.2 i hib, List.getElem?_eq_getElem]
    cases hp : PushBack E ys[i] a m with
    | ub => simp [pushFrom, hx, hp] at h
    | threw st => simp [pushFrom, hx, hp] at h
    | ok st =>
      obtain ⟨a1, m1⟩ := st
      simp only [pushFrom, hx, hp] at h
      obtain ⟨w1, y1, z1⟩ := PushBackWith_ok_spec hwa hya hp
      obtain ⟨f1, f2, f3⟩ := PushBackWith_ok_frame hp
      have hyb1 : Holds m1 b ys := by
        refine Holds_of_read_eq (fun j => readSlot_of_block_eq (fun q hq => ?_) j) hyb
        exact f3 q (fun e => hsh q e hq) (hbp q hq)
      have htake : ys.take i ++ [ys[i]] = ys.take (i + 1) := by
        rw [List.take_succ, List.getElem?_eq_getElem hiy]
        rfl
      rw [htake] at y1
      refine ih (i + 1) a1 a' m1 m' w1 (fun q hq => by have := hbp q hq; omega) y1 hyb1 ?_
        (by omega) (by omega) h
      intro q hq hbq
      rcases f2 with g | g
      · rw [g] at hq
        exact hsh q hq hbq
      · rw [g] at hq
        simp only [Option.some.injEq] at hq
        have := hbp q hbq
        omega

/-- `Reserve(oth.Size())` followed by the copying loop, on an empty destination that
shares no storage with the source `b` holding `ys`: when it returns, the destination
holds `ys` and the source is untouched. -/
theorem reserve_pushFrom_ok {E : ElemOps T W} {a a' b : Vector} {m m' : Mem T W}
    {ys : List T} (hwa : WF m a) (hwb : WF m b) (ha0 : a.size_ = 0) (hsh : NoShare a b)
    (hys : Holds m b ys)
    (h : (match Reserve E (Size b) a m with
      | Res.ok (v2, m2) => pushFrom E b (Size b) 0 v2 m2
      | r => r) = Res.ok (a', m')) :
    a'.size_ = b.size_ ∧ Holds m' a' ys ∧ WF m' a' ∧ Holds m' b ys := by
  have hbn : Size b < SIZE_MOD := by
    have := hwb.1
    have := hwb.2.1
    unfold Size
    omega
  cases hr : Reserve E (Size b) a m with
  | ub => simp [hr] at h
  | threw st => simp [hr] at h
  | ok st =>
    obtain ⟨a2, m2⟩ := st
    simp only [hr] at h
    obtain ⟨w2, z2, l2, d2, fr2⟩ := Reserve_ok_frame hwa hbn hr
    have hbp : ∀ q, b.data_ = some q → q < m.heap.length := hwb.2.2
    have ha2 : a2.size_ = 0 := by rw [z2, ha0]
    have hyb2 : Holds m2 b ys := by
      refine Holds_of_read_eq (fun j => readSlot_of_block_eq (fun q hq => ?_) j) hys
      exact fr2 q (fun e => hsh q e hq) (hbp q hq)
    have hsh2 : NoShare a2 b := by
      intro q hq hbq
      rcases d2 with g | g
      · rw [g] at hq
        exact hsh q hq hbq
      · rw [g] at hq
        simp only [Option.some.injEq] at hq
        have := hbp q hbq
        omega
    exact pushFrom_ok (Size b) 0 a2 a' m2 m' w2
      (fun q hq => by have := hbp q hq; omega)
      ⟨by simp [ha2], fun i hi => by omega⟩ hyb2 hsh2 (by simp [Size]) ha2 h

/-- C14. Copies of the well-formed container `src` (object `oth`) holding `ys`. When
the copy constructor returns, the new object (the last one) has the length of `src`,
holds `ys` index by index and has `cap_` at least that length, and `src` is unchanged.
The same holds for the destination when the copy assignment into a distinct
well-formed container that shares no storage with `src` returns. Copy
self-assignment returns the state unchanged. -/
theorem copy_yields_equal (E : ElemOps T W) (s : State T W) (oth : Nat) (src : Vector)
    (ys : List T) (hb : s.objs[oth]? = some src) (hwb : WF s.mem src)
    (hys : Holds s.mem src ys) :
    (∀ s', step E (Op.ctorCopy oth) s = Res.ok s' →
      ∃ c, s'.objs[s.objs.length]? = some c ∧ Size c = Size src ∧ Holds s'.mem c ys ∧
        Size src ≤ Capacity c ∧ s'.objs[oth]? = some src ∧ Holds s'.mem src ys) ∧
    (∀ (this : Nat) (d : Vector) (s' : State T W), this ≠ oth → s.objs[this]? = some d →
      WF s.mem d → NoShare d src → assignCopy E this oth s = Res.ok s' →
      ∃ c, s'.objs[this]? = some c ∧ Size c = Size src ∧ Holds s'.mem c ys ∧
        Size src ≤ Capacity c ∧ s'.objs[oth]? = some src ∧ Holds s'.mem src ys) ∧
    assignCopy E oth oth s = Res.ok s := by
  have hlo : oth < s.objs.length := lt_of_getElem? hb
  refine ⟨?_, ?_, by simp [assignCopy, hb]⟩
  · intro s' h
    have h' : construct (Vector.fromCopy E src) s = Res.ok s' := by
      simpa only [step, hb] using h
    unfold construct at h'
    cases hc : Vector.fromCopy E src s.mem with
    | ub => simp [hc] at h'
    | threw st => simp [hc] at h'
    | ok st =>
      obtain ⟨c, m'⟩ := st
      simp only [hc, Res.ok.injEq] at h'
      subst h'
      obtain ⟨k1, k2, k3, k4⟩ := reserve_pushFrom_ok (WF_default s.mem) hwb rfl
        (fun q hq => by cases hq) hys hc
      unfold Size Capacity
      refine ⟨c, by simp, k1, k2, ?_, ?_, k4⟩
      · have := k3.1
        omega
      · simp only
        rw [List.getElem?_append_left hlo, hb]
  · intro this d s' hne hd hwd hsh h
    have hlt : this < s.objs.length := lt_of_getElem? hd
    unfold assignCopy at h
    rw [hb] at h
    simp only [if_pos hne, method, hd] at h
    cases hbody : assignCopyBody E d src s.mem with
    | ub => simp [hbody] at h
    | threw st => simp [hbody] at h
    | ok st =>
      obtain ⟨c, m'⟩ := st
      simp only [hbody, Res.ok.injEq] at h
      subst h
      unfold assignCopyBody at hbody
      cases hc : Clear d s.mem with
      | ub => simp [hc] at hbody
      | threw st => simp [hc] at hbody
      | ok st =>
        obtain ⟨d1, m1⟩ := st
        simp only [hc] at hbody
        obtain ⟨hv1, hl1, hfr1⟩ := Clear_ok_inv hc
        have hwd1 : WF m1 d1 := by
          subst hv1
          exact ⟨Nat.zero_le _, hwd.2.1, fun q hq => by rw [hl1]; exact hwd.2.2 q hq⟩
        have hwb1 : WF m1 src := ⟨hwb.1, hwb.2.1, fun q hq => by rw [hl1]; exact hwb.2.2 q hq⟩
        have hyb1 : Holds m1 src ys := by
          refine Holds_of_read_eq (fun j => readSlot_frame hfr1 (fun q hq e => ?_) j) hys
          exact hsh q e hq
        have hsh1 : NoShare d1 src := by
          subst hv1
          exact hsh
        obtain ⟨k1, k2, k3, k4⟩ := reserve_pushFrom_ok hwd1 hwb1 (by rw [hv1]) hsh1 hyb1 hbody
        unfold Size Capacity
        refine ⟨c, ?_, k1, k2, ?_, ?_, k4⟩
        · simp only
          rw [List.getElem?_set_self hlt]
        · have := k3.1
          omega
        · simp only
          rw [List.getElem?_set_ne hne, hb]

/-- C14 at work: the container `{1, 2}` of `copyStart` copy-constructed and
copy-assigned. -/
theorem copy_yields_equal_witness :
    copyStart.objs[0]? = some (vecOf [1, 2] 0) ∧ WF copyStart.mem (vecOf [1, 2] 0) ∧
    Holds copyStart.mem (vecOf [1, 2] 0) [1, 2] ∧
    step (failAt 100) (Op.ctorCopy 0) copyStart = Res.ok copyCtorEnd ∧
    (∃ c, copyCtorEnd.objs[copyStart.objs.length]? = some c ∧ Size c = Size (vecOf [1, 2] 0) ∧
      Holds copyCtorEnd.mem c [1, 2] ∧ Size (vecOf [1, 2] 0) ≤ Capacity c ∧
      copyCtorEnd.objs[0]? = some (vecOf [1, 2] 0) ∧
      Holds copyCtorEnd.mem (vecOf [1, 2] 0) [1, 2]) ∧
    assignCopy (failAt 100) 1 0 copyStart = Res.ok copyAssignEnd ∧
    (∃ c, copyAssignEnd.objs[1]? = some c ∧ Size c = Size (vecOf [1, 2] 0) ∧
      Holds copyAssignEnd.mem c [1, 2] ∧ Size (vecOf [1, 2] 0) ≤ Capacity c ∧
      copyAssignEnd.objs[0]? = some (vecOf [1, 2] 0) ∧
      Holds copyAssignEnd.mem (vecOf [1, 2] 0) [1, 2]) :=
  have hb : copyStart.objs[0]? = some (vecOf [1, 2] 0) := by decide
  have hwb : WF copyStart.mem (vecOf [1, 2] 0) := by unfold WF; decide
  have hys : Holds copyStart.mem (vecOf [1, 2] 0) [1, 2] := by unfold Holds; decide
  have h := copy_yields_equal (failAt 100) copyStart 0 (vecOf [1, 2] 0) [1, 2] hb hwb hys
  ⟨hb, hwb, hys, by decide, h.1 copyCtorEnd (by decide), by decide,
   h.2.1 1 { data_ := some 1, size_ := 1, cap_ := 1 } copyAssignEnd (by decide) (by decide)
     (by unfold WF; decide) (by intro q hq; cases hq; decide) (by decide)⟩

/-! ## C18: the container refines a plain list -/

/-- One operation, called within its precondition on a well-formed container holding
`ys`: when it returns, the container holds what the list model gives. -/
theorem applyOp_spec {E : ElemOps T W} {op : SeqOp T} {v v' : Vector} {m m' : Mem T W}
    {ys : List T} (hwf : WF m v) (hys : Holds m v ys) (hok : opAllowed op ys)
    (h : applyOp E op v m = Res.ok (v', m')) :
    WF m' v' ∧ Holds m' v' (modelOp op ys) := by
  cases op with
  | PushBack x =>
    obtain ⟨w, y, -⟩ := PushBackWith_ok_spec hwf hys h
    exact ⟨w, y⟩
  | PopBack =>
    have hne : ys ≠ [] := hok
    have hpos : 0 < v.size_ := by
      rw [← hys.1]
      exact List.length_pos.mpr hne
    obtain ⟨m1, p1, p2, p3, -⟩ := PopBack_ok_spec hwf hys hpos
    have h' : PopBack v m = Res.ok (v', m') := h
    rw [p1] at h'
    simp only [Res.ok.injEq, Prod.mk.injEq] at h'
    obtain ⟨e1, e2⟩ := h'
    subst e1 e2
    refine ⟨p3, ?_⟩
    show Holds _ _ ys.dropLast
    rw [List.dropLast_eq_take, hys.1]
    exact p2
  | Resize n x =>
    have hn : n < SIZE_MOD := hok
    obtain ⟨-, r2, r3, -⟩ := Resize_ok_spec hwf hys hn h
    exact ⟨r3, r2⟩
  | Clear =>
    obtain ⟨m1, c1, c2, -⟩ := Clear_ok_layout hwf hys
    have h' : Clear v m = Res.ok (v', m') := h
    rw [c1] at h'
    simp only [Res.ok.injEq, Prod.mk.injEq] at h'
    obtain ⟨e1, e2⟩ := h'
    subst e1 e2
    exact ⟨c2, rfl, fun i hi => by simp only at hi; omega⟩

/-- A sequence of operations, each called within its precondition: when all return,
the container holds what the list model gives. -/
theorem runSeq_spec {E : ElemOps T W} (ops : List (SeqOp T)) :
    ∀ (v v' : Vector) (m m' : Mem T W) (ys : List T), WF m v → Holds m v ys →
    Admissible ops ys → runSeq E ops v m = Res.ok (v', m') →
    WF m' v' ∧ Holds m' v' (modelRun ops ys) := by
  induction ops with
  | nil =>
    intro v v' m m' ys hwf hys _ h
    simp only [runSeq, Res.ok.injEq, Prod.mk.injEq] at h
    obtain ⟨e1, e2⟩ := h
    subst e1 e2
    exact ⟨hwf, hys⟩
  | cons op ops ih =>
    intro v v' m m' ys hwf hys hadm h
    cases h1 : applyOp E op v m with
    | ub => simp [runSeq, h1] at h
    | threw st => simp [runSeq, h1] at h
    | ok st =>
      obtain ⟨v1, m1⟩ := st
      simp only [runSeq, h1] at h
      obtain ⟨w1, y1⟩ := applyOp_spec hwf hys hadm.1 h1
      exact ih v1 v' m1 m' _ w1 y1 hadm.2 h

/-- C18. Reference-model equivalence. For a well-formed container holding `ys` (in
particular the default-constructed, empty one, which holds `[]`) and every finite
sequence of `PushBack(x)`, `PopBack` (only when non-empty), `Resize(n, x)` and `Clear`
calls that all return: `Size()` is the length of the list the model gives (append,
drop the last, truncate or pad with `x`, reset to empty), `operator[](i)` is its
`i`-th element for every `i` below that length, and when the list is not empty
`Front()` is its first and `Back()` its last element. -/
theorem list_model_refinement (E : ElemOps T W) (ops : List (SeqOp T)) (v v' : Vector)
    (m m' : Mem T W) (ys : List T) (hwf : WF m v) (hys : Holds m v ys)
    (hadm : Admissible ops ys) (h : runSeq E ops v m = Res.ok (v', m')) :
    Size v' = (modelRun ops ys).length ∧
    (∀ i, i < (modelRun ops ys).length → subscript v' m' i = (modelRun ops ys)[i]?) ∧
    (modelRun ops ys ≠ [] →
      Front v' m' = (modelRun ops ys).head? ∧ Back v' m' = (modelRun ops ys).getLast?) := by
  obtain ⟨w, y⟩ := runSeq_spec ops v v' m m' ys hwf hys hadm h
  obtain ⟨hl, hr⟩ := y
  unfold Size
  refine ⟨hl.symm, fun i hi => hr i (by omega), fun hne => ?_⟩
  have hpos : 0 < v'.size_ := by
    rw [← hl]
    exact List.length_pos.mpr hne
  have hlt : v'.size_ < SIZE_MOD := by
    have := w.1
    have := w.2.1
    omega
  refine ⟨?_, ?_⟩
  · rw [List.head?_eq_getElem?, ← hr 0 hpos]
    rfl
  · have hidx : (v'.size_ + SIZE_MOD - 1) % SIZE_MOD = v'.size_ - 1 := by
      rw [SIZE_MOD_val] at *
      omega
    rw [List.getLast?_eq_getElem?, hl, ← hr (v'.size_ - 1) (by omega)]
    unfold Back subscript
    rw [hidx]

/-- C18 at work: a run of eight operations from the default-constructed container. -/
theorem list_model_refinement_witness :
    WF emptyMem Vector.default ∧ Holds emptyMem Vector.default [] ∧
    Admissible seqOps [] ∧
    runSeq (failAt 100) seqOps Vector.default emptyMem = Res.ok (⟨some 2, 2, 4⟩, memSeq) ∧
    modelRun seqOps [] = [5, 6] ∧
    Size (⟨some 2, 2, 4⟩ : Vector) = (modelRun seqOps []).length ∧
    (∀ i, i < (modelRun seqOps []).length →
      subscript ⟨some 2, 2, 4⟩ memSeq i = (modelRun seqOps [])[i]?) ∧
    Front ⟨some 2, 2, 4⟩ memSeq = (modelRun seqOps []).head? ∧
    Back ⟨some 2, 2, 4⟩ memSeq = (modelRun seqOps []).getLast? :=
  have hwf : WF emptyMem Vector.default := WF_default emptyMem
  have hys : Holds emptyMem Vector.default [] := by
    unfold Holds; decide
  have hadm : Admissible seqOps [] := by
    simp [seqOps, Admissible, opAllowed, modelOp, SIZE_MOD]
  have h := list_model_refinement (failAt 100) seqOps Vector.default ⟨some 2, 2, 4⟩ emptyMem
    memSeq [] hwf hys hadm (by decide)
  ⟨hwf, hys, hadm, by decide, by decide, h.1, h.2.1, h.2.2 (by decide)⟩

/-! ## C16: number of reallocations -/

theorem allocCount_allocBlock {E : ElemOps T W} {n p : Nat} {m m1 : Mem T W}
    (h : allocBlock E n m = (some p, m1)) : allocCount m1 = allocCount m + 1 := by
  unfold allocBlock at h
  simp only at h
  split at h
  · simp at h
  · simp only [Prod.mk.injEq, Option.some.injEq] at h
    obtain ⟨-, hm⟩ := h
    subst hm
    simp [allocCount, isAlloc]

theorem allocCount_placementNew {ctor : T → W → Bool × W} {ptr : Option Nat} {i : Nat}
    {x : T} {m m' : Mem T W} (h : placementNew ctor ptr i x m = Res.ok m') :
    allocCount m' = allocCount m := by
  unfold placementNew at h
  split at h
  · cases h
  · split at h
    · split at h
      · simp only at h
        split at h
        · cases h
        · simp only [Res.ok.injEq] at h
          subst h
          simp [allocCount, isAlloc]
      · cases h
    · cases h

theorem allocCount_destroyAt {ptr : Option Nat} {i : Nat} {m m' : Mem T W}
    (h : destroyAt ptr i m = some m') : allocCount m' = allocCount m := by
  unfold destroyAt at h
  split at h
  · cases h
  · split at h
    · split at h
      · simp only [Option.some.injEq] at h
        subst h
        simp [allocCount, isAlloc]
      · cases h
    · cases h

theorem allocCount_DestroyFrom {ptr : Option Nat} (k : Nat) : ∀ (i : Nat) (m m' : Mem T W),
    DestroyFrom ptr k i m = some m' → allocCount m' = allocCount m := by
  induction k with
  | zero =>
    intro i m m' h
    simp only [DestroyFrom, Option.some.injEq] at h
    rw [h]
  | succ k ih =>
    intro i m m' h
    cases h1 : destroyAt ptr i m with
    | none => simp [DestroyFrom, h1] at h
    | some m1 =>
      simp only [DestroyFrom, h1] at h
      rw [ih (i + 1) m1 m' h, allocCount_destroyAt h1]

theorem allocCount_freeBlock {ptr : Option Nat} {m m' : Mem T W}
    (h : freeBlock ptr m = some m') : allocCount m' = allocCount m := by
  unfold freeBlock at h
  split at h
  · simp only [Option.some.injEq] at h
    rw [h]
  · split at h
    · simp only [Option.some.injEq] at h
      subst h
      simp [allocCount, isAlloc]
    · cases h

theorem allocCount_copyLoop {E : ElemOps T W} {src dst : Option Nat} (k : Nat) :
    ∀ (r : Nat) (m m' : Mem T W), copyLoop E src dst k r m = LoopRes.done m' →
    allocCount m' = allocCount m := by
  induction k with
  | zero =>
    intro r m m' h
    simp only [copyLoop, LoopRes.done.injEq] at h
    rw [h]
  | succ k ih =>
    intro r m m' h
    cases hx : readSlot m src r with
    | none => simp [copyLoop, hx] at h
    | some x =>
      cases hn : placementNew E.copyCtor dst r x m with
      | ub => simp [copyLoop, hx, hn] at h
      | threw m1 => simp [copyLoop, hx, hn] at h
      | ok m1 =>
        simp only [copyLoop, hx, hn] at h
        rw [ih (r + 1) m1 m' h, allocCount_placementNew hn]

/-- A returning `PushBack` allocates nothing and keeps `cap_` when `size_ < cap_`,
and allocates once, for the capacity the growth policy gives, otherwise. -/
theorem PushBackWith_ok_allocs {E : ElemOps T W} {ctor : T → W → Bool × W} {x : T}
    {v v' : Vector} {m m' : Mem T W} (h : PushBackWith E ctor x v m = Res.ok (v', m')) :
    (v.size_ < v.cap_ → allocCount m' = allocCount m ∧ v'.cap_ = v.cap_) ∧
    (¬ v.size_ < v.cap_ → allocCount m' = allocCount m + 1 ∧
      v'.cap_ = if v.cap_ = 0 then 1 else (v.cap_ * 2) % SIZE_MOD) := by
  rcases PushBackWith_ok_inv h with ⟨hlt, hn, hv⟩ |
    ⟨hlt, p, m1, m2, m3, m4, ha, hc, hn, hd, hf, hv⟩
  · refine ⟨fun _ => ⟨allocCount_placementNew hn, by rw [hv]⟩, fun hc => absurd hlt hc⟩
  · refine ⟨fun hc => absurd hc hlt, fun _ => ⟨?_, by rw [hv]⟩⟩
    rw [allocCount_freeBlock hf, allocCount_DestroyFrom v.size_ 0 m3 m4 hd,
      allocCount_placementNew hn, allocCount_copyLoop v.size_ 0 m1 m2 hc,
      allocCount_allocBlock ha]

/-- Invariant of a run of appends on a container that went through `e + 1`
allocations: `cap_` is `2 ^ e`, the least power of two that is at least `size_`. -/
theorem pushAll_allocs {E : ElemOps T W} (a0 : Nat) (xs : List T) :
    ∀ (v v' : Vector) (m m' : Mem T W) (ys : List T) (e : Nat), WF m v → Holds m v ys →
    1 ≤ v.size_ → v.cap_ = 2 ^ e → (e = 0 ∨ 2 ^ (e - 1) < v.size_) →
    allocCount m = a0 + e + 1 → pushAll E xs v m = Res.ok (v', m') →
    ∃ e', v'.cap_ = 2 ^ e' ∧ v'.size_ ≤ 2 ^ e' ∧ (e' = 0 ∨ 2 ^ (e' - 1) < v'.size_) ∧
      allocCount m' = a0 + e' + 1 ∧ v'.size_ = v.size_ + xs.length := by
  induction xs with
  | nil =>
    intro v v' m m' ys e hwf _ _ hcap hlow hal h
    simp only [pushAll, Res.ok.injEq, Prod.mk.injEq] at h
    obtain ⟨e1, e2⟩ := h
    subst e1 e2
    exact ⟨e, hcap, by rw [← hcap]; exact hwf.1, hlow, hal, rfl⟩
  | cons x xs ih =>
    intro v v' m m' ys e hwf hys hpos hcap hlow hal h
    cases hp : PushBack E x v m with
    | ub => simp [pushAll, hp] at h
    | threw st => simp [pushAll, hp] at h
    | ok st =>
      obtain ⟨v1, m1⟩ := st
      simp only [pushAll, hp] at h
      obtain ⟨w1, y1, z1⟩ := PushBackWith_ok_spec hwf hys hp
      obtain ⟨q1, q2⟩ := PushBackWith_ok_allocs hp
      have hstep : ∃ e1, v1.cap_ = 2 ^ e1 ∧ (e1 = 0 ∨ 2 ^ (e1 - 1) < v1.size_) ∧
          allocCount m1 = a0 + e1 + 1 := by
        by_cases hlt : v.size_ < v.cap_
        · obtain ⟨r1, r2⟩ := q1 hlt
          refine ⟨e, by rw [r2, hcap], ?_, by rw [r1, hal]⟩
          rcases hlow with h0 | h0
          · exact Or.inl h0
          · exact Or.inr (by omega)
        · obtain ⟨r1, r2⟩ := q2 hlt
          have hc0 : v.cap_ ≠ 0 := by
            rw [hcap]
            exact (Nat.two_pow_pos e).ne'
          rw [if_neg hc0] at r2
          have hsz : v.size_ = v.cap_ := by
            have := hwf.1
            omega
          have hdouble : v1.cap_ = 2 ^ (e + 1) := by
            have h1 := w1.1
            have h2 := hwf.2.1
            rw [SIZE_MOD_val] at r2 h2
            rw [pow_succ, ← hcap]
            omega
          refine ⟨e + 1, hdouble, Or.inr ?_, by rw [r1, hal]; omega⟩
          rw [Nat.add_sub_cancel, ← hcap]
          omega
      obtain ⟨e1, c1, c2, c3⟩ := hstep
      obtain ⟨e', d1, d2, d3, d4, d5⟩ := ih v1 v' m1 m' _ e1 w1 y1 (by omega) c1 c2 c3 h
      exact ⟨e', d1, d2, d3, d4, by rw [d5, z1, List.length_cons]; omega⟩

/-- C16. Growth amortization. When `n >= 1` appends on a default-constructed container
all return, the number of allocations they made is `ceil(log2 n) + 1`, and `cap_`
ends as `2 ^ ceil(log2 n)`, the least power of two that is at least `n`. -/
theorem growth_amortization (E : ElemOps T W) (xs : List T) (v' : Vector) (m m' : Mem T W)
    (hn : 1 ≤ xs.length) (h : pushAll E xs Vector.default m = Res.ok (v', m')) :
    allocCount m' = allocCount m + (Nat.clog 2 xs.length + 1) ∧
    Capacity v' = 2 ^ Nat.clog 2 xs.length ∧ xs.length ≤ Capacity v' := by
  cases xs with
  | nil => simp at hn
  | cons x xs =>
    cases hp : PushBack E x Vector.default m with
    | ub => simp [pushAll, hp] at h
    | threw st => simp [pushAll, hp] at h
    | ok st =>
      obtain ⟨v1, m1⟩ := st
      simp only [pushAll, hp] at h
      have hy0 : Holds m Vector.default ([] : List T) :=
        ⟨rfl, fun i hi => by simp [Vector.default] at hi⟩
      obtain ⟨w1, y1, z1⟩ := PushBackWith_ok_spec (WF_default m) hy0 hp
      obtain ⟨-, q2⟩ := PushBackWith_ok_allocs hp
      obtain ⟨r1, r2⟩ := q2 (by simp [Vector.default])
      have hc1 : v1.cap_ = 2 ^ 0 := by
        rw [r2]
        simp [Vector.default]
      have hs1 : v1.size_ = 1 := by
        rw [z1]
        rfl
      obtain ⟨e', d1, d2, d3, d4, d5⟩ := pushAll_allocs (allocCount m) xs v1 v' m1 m' _ 0 w1 y1
        (by omega) hc1 (Or.inl rfl) (by rw [r1]) h
      have hlen : v'.size_ = (x :: xs).length := by
        rw [d5, hs1, List.length_cons]
        omega
      have hclog : Nat.clog 2 (x :: xs).length = e' := by
        rw [← hlen]
        apply le_antisymm
        · exact (Nat.le_pow_iff_clog_le (by norm_num)).mp d2
        · rcases d3 with h0 | h0
          · omega
          · have := (Nat.pow_lt_iff_lt_clog (by norm_num)).mp h0
            omega
      unfold Capacity
      rw [hclog, d1]
      refine ⟨by rw [d4]; omega, rfl, ?_⟩
      rw [← hlen]
      exact d2

/-- C16 at work: three appends make three allocations and end with capacity 4. -/
theorem growth_amortization_witness :
    pushAll (failAt 100) [1, 2, 3] Vector.default emptyMem = Res.ok (vecPushed, memPushed) ∧
    allocCount memPushed = allocCount emptyMem + (Nat.clog 2 [1, 2, 3].length + 1) ∧
    Capacity vecPushed = 2 ^ Nat.clog 2 [1, 2, 3].length ∧
    [1, 2, 3].length ≤ Capacity vecPushed :=
  ⟨by decide,
   growth_amortization (failAt 100) [1, 2, 3] vecPushed emptyMem memPushed (by decide)
     (by decide)⟩

end VectorH
